import Mathlib

/-!
A shallow embedding of `pyretic/lib/path.py`: the predicate-overlap analysis
(`classifier_utils`), the leaf-predicate symbol table and tree builder
(`re_tree_gen`), atom construction and atom algebra, and the DFA-to-policy
stitcher (`pathcomp`).

Predicates are modelled as syntactic terms over base packet sets, because the
source keys its dictionaries by predicate terms (policy ASTs compared
structurally) while deciding overlap through an external classifier oracle;
the oracle itself (`pyretic.core.language`) is not among the sources and is
modelled from the spec as satisfiability over a finite packet universe.
Likewise the regex AST (`pyretic.lib.re`) is not among the sources; its
constructors and the `|` smart constructor are modelled from the spec.
-/

namespace Pyretic

/-- Python exception kinds raised by the modelled code paths: `raise
TypeError(...)`, failing `assert` statements, and dictionary lookup misses. -/
inductive PyErr where
  | typeError (msg : String)
  | assertionError (msg : String)
  | keyError (msg : String)
deriving DecidableEq

/-- Modelled from the spec: predicates are opaque elements of an external
boolean algebra over located packets (`pyretic.core.language`, absent from the
sources). Following the source, which keys `pred_to_symbol`/`pred_to_atoms`
by predicate terms (looked up structurally, e.g. `pred_to_symbol[pred &
new_pred]` at path.py:277) and consults the external oracle for semantic
questions, predicates are syntactic terms over base packet sets. -/
inductive Pred (α : Type) where
  | base (s : Finset α)
  | conj (p q : Pred α)
  | disj (p q : Pred α)
  | compl (p : Pred α)
deriving DecidableEq

variable {α : Type} [DecidableEq α] [Fintype α]

/-- Modelled from the spec: the denotation of a predicate, i.e. the set of
packets matched by it, through the external boolean algebra. -/
def sem : Pred α → Finset α
  | .base s => s
  | .conj p q => sem p ∩ sem q
  | .disj p q => sem p ∪ sem q
  | .compl p => (sem p)ᶜ

/-- The `identity` policy of the external algebra: matches every packet. -/
def identity : Pred α := Pred.base Finset.univ

/-- `classifier_utils.is_not_drop` (path.py:74-78): true when the policy is
not effectively a drop. The classifier generation is external; modelled from
the spec as the satisfiability oracle `satisfiable(φ)`. -/
def is_not_drop (p : Pred α) : Bool := decide (sem p ≠ ∅)

/-- `classifier_utils.has_nonempty_intersection` (path.py:80-86). -/
def has_nonempty_intersection (p1 p2 : Pred α) : Bool :=
  is_not_drop (.conj p1 p2)

/-- `classifier_utils.get_overlap_mode` (path.py:88-108): the tuple
`(is_equal, is_superset, is_subset, intersects)` computed by the source's
`if`/`elif` chain. -/
def get_overlap_mode (pred new_pred : Pred α) : Bool × Bool × Bool × Bool :=
  if !(has_nonempty_intersection pred (.compl new_pred))
      && !(has_nonempty_intersection (.compl pred) new_pred) then
    (true, false, false, false)
  else if !(has_nonempty_intersection (.compl pred) new_pred) then
    (false, true, false, false)
  else if !(has_nonempty_intersection pred (.compl new_pred)) then
    (false, false, true, false)
  else if has_nonempty_intersection pred new_pred then
    (false, false, false, true)
  else
    (false, false, false, false)

/-- Modelled from the spec: the regex AST of `pyretic.lib.re` (imported by
path.py but absent from the sources): empty language, epsilon, symbol
carrying metadata (a list of atom ids), alternation, concatenation, star. -/
inductive Re where
  | empty
  | epsilon
  | symbol (char : Nat) (metadata : List Nat)
  | alter (res : List Re)
  | cat (res : List Re)
  | star (r : Re)

/-- Modelled from the spec: the `|` smart constructor on regexes; alternation
flattens nested alternations and absorbs the empty language (spec §4.1). -/
def reUnion : Re → Re → Re
  | .empty, r => r
  | .alter l1, .empty => .alter l1
  | .alter l1, .alter l2 => .alter (l1 ++ l2)
  | .alter l1, r2 => .alter (l1 ++ [r2])
  | r1, .empty => r1
  | r1, .alter l2 => .alter (r1 :: l2)
  | r1, r2 => .alter [r1, r2]

mutual

/-- The `(symbol, metadata)` occurrences of a regex tree, left to right. -/
def symMetas : Re → List (Nat × List Nat)
  | .empty => []
  | .epsilon => []
  | .symbol c m => [(c, m)]
  | .alter l => symMetasList l
  | .cat l => symMetasList l
  | .star r => symMetas r

def symMetasList : List Re → List (Nat × List Nat)
  | [] => []
  | r :: rs => symMetas r ++ symMetasList rs

end

/-- The symbols occurring in a regex tree. -/
def treeSyms (t : Re) : List Nat := (symMetas t).map (·.1)

/-- The effect of the replacement walk on one `(symbol, metadata)`
occurrence: an occurrence of `old_sym` becomes one occurrence per symbol of
the replacement tree `R`, carrying the old metadata; any other occurrence is
kept. -/
def substSym (old_sym : Nat) (R : Re) (cm : Nat × List Nat) :
    List (Nat × List Nat) :=
  if cm.1 = old_sym then (symMetas R).map (fun dm => (dm.1, cm.2)) else [cm]

/-- Whether a regex node is a symbol leaf. -/
def isSymbol : Re → Bool
  | .symbol _ _ => true
  | _ => false

/-- Flat trees: the empty language, a bare symbol, or an alternation of
symbols. Every tree produced by `get_re_tree` and by the replacement walk is
flat, because trees are built exclusively with `reUnion` from symbols. -/
def flatRe : Re → Bool
  | .empty => true
  | .symbol _ _ => true
  | .alter l => l.all isSymbol
  | _ => false

/-- The global state of `re_tree_gen` together with the constructed atoms'
trees: the token counter, the leaf table (the source's `pred_to_symbol`,
`pred_to_atoms` and `symbol_to_pred` dictionaries are updated in lock step
and are merged here into one association list of `(pred, symbol, atoms)`
entries in insertion order), and each atom's `re_tree`, indexed by atom id
(construction order). -/
structure World (α : Type) where
  token : Nat
  leaves : List (Pred α × Nat × List Nat)
  trees : List Re

/-- `TOKEN_START_VALUE` (path.py:43). -/
def TOKEN_START_VALUE : Nat := 48

/-- `re_tree_gen.clear` (path.py:290-295), which is also the initial state. -/
def clearST : World α := ⟨TOKEN_START_VALUE, [], []⟩

/-- Dictionary lookup `pred_to_symbol[p] / pred_to_atoms[p]` (structural key
equality; keys are unique because `__add_pred__` asserts absence). -/
def lookupEntry (w : World α) (p : Pred α) : Option (Nat × List Nat) :=
  (w.leaves.find? (fun e => decide (e.1 = p))).map (·.2)

/-- `re_tree_gen.__add_pred__` (path.py:152-159); the asserts require that
the predicate is not already a key. -/
def add_pred (w : World α) (pred : Pred α) (symbol : Nat) (atoms : List Nat) :
    Except PyErr (World α) :=
  if (lookupEntry w pred).isSome then
    .error (.assertionError "add_pred: pred already a leaf")
  else
    .ok { w with leaves := w.leaves ++ [(pred, symbol, atoms)] }

/-- `re_tree_gen.__del_pred__` (path.py:161-168): drop the (unique) entry of
the given predicate; a missing key is a `KeyError`. -/
def del_pred (w : World α) (pred : Pred α) : Except PyErr (World α) :=
  if (lookupEntry w pred).isSome then
    .ok { w with leaves := w.leaves.eraseP (fun e => decide (e.1 = pred)) }
  else
    .error (.keyError "del_pred: missing pred")

/-- `re_tree_gen.__new_symbol__` (path.py:170-177): bump the token counter
and use it as the fresh symbol (the source returns `chr(token)`; we keep the
code point itself). -/
def new_symbol (w : World α) : World α × Nat :=
  ({ w with token := w.token + 1 }, w.token + 1)

/-- `pred_to_atoms[pred].append(at)`, as performed by the `is_equal` and
`is_subset` arms of `get_re_tree`. -/
def append_atom (w : World α) (pred : Pred α) (at_ : Nat) : World α :=
  { w with
    leaves := w.leaves.map fun e =>
      if e.1 = pred then (e.1, e.2.1, e.2.2 ++ [at_]) else e }

/-- `at.re_tree = new_atom_re_tree` — overwrite one atom's stored tree. -/
def setTree (w : World α) (i : Nat) (t : Re) : World α :=
  { w with trees := w.trees.set i t }

/-- `at.re_tree` — read one atom's stored tree. -/
def getTree (w : World α) (i : Nat) : Re := w.trees.getD i .empty

mutual

/-- `new_metadata_tree` inside `__replace_pred__` (path.py:185-197): copy the
metadata `m` onto every leaf of the replacement tree; walking anything other
than symbols and alternations raises `TypeError`. -/
def new_metadata_tree (m : List Nat) : Re → Except PyErr Re
  | .symbol c meta =>
      if meta = [] then .ok (.symbol c m)
      else .error (.assertionError "new_metadata_tree: metadata not empty")
  | .alter l => new_metadata_list m l .empty
  | _ => .error (.typeError "Trees are only allowed to have alternation!")

/-- The `for re in re_tree.re_list` fold of `new_metadata_tree`. -/
def new_metadata_list (m : List Nat) : List Re → Re → Except PyErr Re
  | [], acc => .ok acc
  | r :: rs, acc =>
      match new_metadata_tree m r with
      | .error e => .error e
      | .ok t => new_metadata_list m rs (reUnion acc t)

end

mutual

/-- `replace_node` inside `__replace_pred__` (path.py:199-215): replace every
symbol node carrying `old_sym` by the replacement tree (with the old node's
metadata copied onto its leaves); other symbols are returned unchanged, and
walking anything other than symbols and alternations raises `TypeError`. -/
def replace_node (new_re_tree : Re) (old_sym : Nat) : Re → Except PyErr Re
  | .symbol c meta =>
      if c = old_sym then new_metadata_tree meta new_re_tree
      else .ok (.symbol c meta)
  | .alter l => replace_list new_re_tree old_sym l .empty
  | _ => .error (.typeError "Trees are only allowed to have alternation!")

/-- The `for re in old_re_tree.re_list` fold of `replace_node`. -/
def replace_list (new_re_tree : Re) (old_sym : Nat) :
    List Re → Re → Except PyErr Re
  | [], acc => .ok acc
  | r :: rs, acc =>
      match replace_node new_re_tree old_sym r with
      | .error e => .error e
      | .ok t => replace_list new_re_tree old_sym rs (reUnion acc t)

end

/-- The first loop of `__replace_pred__` (path.py:220-225): build the
replacement tree, an alternation of the new predicates' symbols (without
metadata), asserting that each new predicate is a leaf. -/
def buildNewReTree (w : World α) : List (Pred α) → Re → Except PyErr Re
  | [], acc => .ok acc
  | p :: ps, acc =>
      match lookupEntry w p with
      | none => .error (.assertionError "replace_pred: new pred not a leaf")
      | some (s, _) => buildNewReTree w ps (reUnion acc (.symbol s []))

/-- The second loop of `__replace_pred__` (path.py:226-229): rewrite the
stored tree of every atom in the old predicate's atom list. -/
def replaceAtoms (new_re_tree : Re) (old_sym : Nat) :
    List Nat → World α → Except PyErr (World α)
  | [], w => .ok w
  | a :: rest, w =>
      match replace_node new_re_tree old_sym (getTree w a) with
      | .error e => .error e
      | .ok t => replaceAtoms new_re_tree old_sym rest (setTree w a t)

/-- `re_tree_gen.__replace_pred__` (path.py:180-229). -/
def replace_pred (w : World α) (old_pred : Pred α) (new_preds : List (Pred α)) :
    Except PyErr (World α) :=
  match lookupEntry w old_pred with
  | none => .error (.assertionError "replace_pred: old pred not a leaf")
  | some (old_sym, old_atoms) =>
      match buildNewReTree w new_preds .empty with
      | .error e => .error e
      | .ok new_re_tree => replaceAtoms new_re_tree old_sym old_atoms w

/-- Result of the `get_re_tree` loop: either an early `return re_tree`
(`done`) or falling through the loop with the final residual predicate
(`cont`). -/
inductive LoopRes (α : Type) where
  | done (t : Re) (w : World α)
  | cont (t : Re) (np : Pred α) (w : World α)

/-- The `for pred in pred_list` loop of `re_tree_gen.get_re_tree`
(path.py:251-281), iterating over the snapshot of leaf predicates while
threading the accumulated re tree, the shrinking new predicate, and the
mutated global state. -/
def get_re_tree_loop (at_ : Nat) :
    List (Pred α) → Pred α → Re → World α → Except PyErr (LoopRes α)
  | [], np, acc, w => .ok (.cont acc np w)
  | pred :: rest, np, acc, w =>
      match lookupEntry w pred with
      | none => .error (.assertionError "get_re_tree: pred not in pred_to_atoms")
      | some (pred_symbol, pred_atoms) =>
          match get_overlap_mode pred np with
          | (true, _, _, _) =>
              .ok (.done (reUnion acc (.symbol pred_symbol [at_]))
                    (append_atom w pred at_))
          | (false, true, _, _) =>
              let (w1, s1) := new_symbol w
              match add_pred w1 (.conj pred (.compl np)) s1 pred_atoms with
              | .error e => .error e
              | .ok w2 =>
                  let (w3, s2) := new_symbol w2
                  match add_pred w3 np s2 (pred_atoms ++ [at_]) with
                  | .error e => .error e
                  | .ok w4 =>
                      match replace_pred w4 pred [.conj pred (.compl np), np] with
                      | .error e => .error e
                      | .ok w5 =>
                          match del_pred w5 pred with
                          | .error e => .error e
                          | .ok w6 =>
                              match lookupEntry w6 np with
                              | none => .error (.keyError "get_re_tree: new_pred missing")
                              | some (added_sym, _) =>
                                  .ok (.done (reUnion acc (.symbol added_sym [at_])) w6)
          | (false, false, true, _) =>
              get_re_tree_loop at_ rest (.conj np (.compl pred))
                (reUnion acc (.symbol pred_symbol [at_]))
                (append_atom w pred at_)
          | (false, false, false, true) =>
              let (w1, s1) := new_symbol w
              match add_pred w1 (.conj pred (.compl np)) s1 pred_atoms with
              | .error e => .error e
              | .ok w2 =>
                  let (w3, s2) := new_symbol w2
                  match add_pred w3 (.conj pred np) s2 (pred_atoms ++ [at_]) with
                  | .error e => .error e
                  | .ok w4 =>
                      match replace_pred w4 pred
                          [.conj pred (.compl np), .conj pred np] with
                      | .error e => .error e
                      | .ok w5 =>
                          match del_pred w5 pred with
                          | .error e => .error e
                          | .ok w6 =>
                              match lookupEntry w6 (.conj pred np) with
                              | none => .error (.keyError "get_re_tree: split pred missing")
                              | some (added_sym, _) =>
                                  get_re_tree_loop at_ rest (.conj np (.compl pred))
                                    (reUnion acc (.symbol added_sym [at_])) w6
          | (false, false, false, false) =>
              get_re_tree_loop at_ rest np acc w

/-- `re_tree_gen.get_re_tree` (path.py:232-288). -/
def get_re_tree (w : World α) (new_pred : Pred α) (at_ : Nat) :
    Except PyErr (Re × World α) :=
  match get_re_tree_loop at_ (w.leaves.map (·.1)) new_pred .empty w with
  | .error e => .error e
  | .ok (.done t w1) => .ok (t, w1)
  | .ok (.cont t np w1) =>
      if is_not_drop np then
        let (w2, s) := new_symbol w1
        match add_pred w2 np s [at_] with
        | .error e => .error e
        | .ok w3 =>
            match lookupEntry w3 np with
            | none => .error (.keyError "get_re_tree: added pred missing")
            | some (added_sym, _) =>
                .ok (reUnion t (.symbol added_sym [at_]), w3)
      else .ok (t, w1)

/-- `abstract_atom.__init__` (path.py:555-559): constructing an atom
registers its predicate with `re_tree_gen` and stores the produced `re_tree`
under the next atom id. -/
def buildAtom (w : World α) (p : Pred α) : Except PyErr (World α) :=
  match get_re_tree w p w.trees.length with
  | .error e => .error e
  | .ok (t, w1) => .ok { w1 with trees := w1.trees ++ [t] }

/-- A sequence of atom constructions starting from the given state. -/
def runAtomsAux : World α → List (Pred α) → Except PyErr (World α)
  | w, [] => .ok w
  | w, p :: ps =>
      match buildAtom w p with
      | .error e => .error e
      | .ok w1 => runAtomsAux w1 ps

/-- A finite sequence of atom constructions from a cleared symbol table. -/
def runAtoms (ps : List (Pred α)) : Except PyErr (World α) :=
  runAtomsAux clearST ps

/-- `re_tree_gen.get_unaffected_pred` (path.py:310-316). -/
def get_unaffected_pred (w : World α) : Pred α :=
  match w.leaves.map (·.1) with
  | [] => identity
  | p :: ps => .compl (ps.foldl (fun a x => .disj a x) p)

/-- Policy expressions produced by the stitcher, over the external policy
combinators (`match`/`modify` on the `path_tag` virtual header, filter
policies, `>>`, `+`, `drop`) and the per-query sink policies. -/
inductive Pol (α : Type) where
  | drop
  | filterPol (p : Pred α)
  | matchTag (t : Option Nat)
  | setTag (t : Option Nat)
  | conjP (a b : Pol α)
  | seq (a b : Pol α)
  | par (a b : Pol α)
  | sink (i : Nat)
deriving DecidableEq

/-- Modelled from the spec: the DFA handed to the stitcher by the external
derivative construction (`pyretic.lib.re`, absent from the sources): a list
of edges `(src, dst, symbol)`, dense integer state indices, the dead state,
and per-accepting-state regex ordinals (spec §3, §4.5). -/
structure ModelDFA (Q : Type) where
  edges : List (Q × Q × Nat)
  stateIndex : Q → Nat
  isDead : Q → Bool
  isAccepting : Q → Bool
  acceptingExps : Q → List Nat
  deadState : Q

/-- `pathcomp.__set_tag__` (path.py:792-798). -/
def set_tag (d : ModelDFA Q) (q : Q) : Pol α :=
  if d.stateIndex q = 0 then .setTag none else .setTag (some (d.stateIndex q))

/-- `pathcomp.__match_tag__` (path.py:800-806). -/
def match_tag (d : ModelDFA Q) (q : Q) : Pol α :=
  if d.stateIndex q = 0 then .matchTag none else .matchTag (some (d.stateIndex q))

/-- `pathcomp.__get_dead_state_pred__` (path.py:813-816). -/
def get_dead_state_pred (d : ModelDFA Q) : Pol α :=
  match_tag d d.deadState

/-- `pathcomp.__get_pred__` (path.py:808-811): resolve an edge symbol to its
leaf predicate via `symbol_to_pred` (a lookup miss would be a `KeyError` in
the source; the default is never consulted when the symbol is bound). -/
def get_sym_pred (w : World α) (s : Nat) : Pred α :=
  ((w.leaves.find? (fun e => decide (e.2.1 = s))).map (·.1)).getD (.base ∅)

/-- The body of the `for edge in edges` loop of `pathcomp.compile`
(path.py:858-869), accumulating the tagging and capture policies. -/
def compileStep (w : World α) (d : ModelDFA Q) (pol_list : List (Pol α))
    (tc : Pol α × Pol α) (e : Q × Q × Nat) : Pol α × Pol α :=
  let src := e.1
  let dst := e.2.1
  let pred : Pol α := .filterPol (get_sym_pred w e.2.2)
  let tagging :=
    if d.isDead src then tc.1
    else .par tc.1 (.seq (.conjP (match_tag d src) pred) (set_tag d dst))
  let capture :=
    if d.isAccepting dst then
      (d.acceptingExps dst).foldl
        (fun c i => .par c (.seq (.conjP (match_tag d src) pred) (pol_list.getD i .drop)))
        tc.2
    else tc.2
  (tagging, capture)

/-- `pathcomp.compile` (path.py:836-872), the DFA-walking part: the tagging
policy starts from the dead-state match, the edge loop accumulates both
policies, and the unaffected predicate is appended to the tagging policy. -/
def compileDFA (w : World α) (d : ModelDFA Q) (pol_list : List (Pol α)) :
    Pol α × Pol α :=
  let start : Pol α × Pol α := (get_dead_state_pred d, .drop)
  let tc := d.edges.foldl (compileStep w d pol_list) start
  (.par tc.1 (.filterPol (get_unaffected_pred w)), tc.2)

/-- The parallel summands of a policy, flattening `+`. -/
def summands : Pol α → List (Pol α)
  | .par a b => summands a ++ summands b
  | .drop => [.drop]
  | .filterPol p => [.filterPol p]
  | .matchTag t => [.matchTag t]
  | .setTag t => [.setTag t]
  | .conjP a b => [.conjP a b]
  | .seq a b => [.seq a b]
  | .sink i => [.sink i]

/-- The concrete atom classes of path.py: `atom` (ingress), `egress_atom`,
`drop_atom`, `end_path` and `hook`. -/
inductive AtomKind where
  | ingress
  | egress
  | dropAtom
  | endPath
  | hookAtom
deriving DecidableEq

/-- A constructed atom: its concrete class, its predicate `self.policy`, the
`re_tree` produced at construction, and (for hooks) the groupby key list. -/
structure AbsAtom (α : Type) where
  kind : AtomKind
  policy : Pred α
  re_tree : Re
  groupby : List Nat

/-- `abstract_atom.__init__` / `hook.__init__` (path.py:555-559, 632-635):
construct an atom of the given class, registering its predicate (a hook
additionally asserts a non-empty groupby list before that). -/
def mkAtom (w : World α) (kind : AtomKind) (m : Pred α) (groupby : List Nat) :
    Except PyErr (World α × AbsAtom α) :=
  if kind = AtomKind.hookAtom ∧ groupby = [] then
    .error (.assertionError "hook: groupby must be non-empty")
  else
    match get_re_tree w m w.trees.length with
    | .error e => .error e
    | .ok (t, w1) =>
        .ok ({ w1 with trees := w1.trees ++ [t] }, ⟨kind, m, t, groupby⟩)

/-- `abstract_atom.__and__` (path.py:561-569) and the overriding
`hook.__and__` (path.py:637-640), restricted to atom operands: a different
concrete class raises `TypeError` in the abstract case, while a hook left
operand asserts that the other operand is a hook with the same groupby. -/
def atom_and (w : World α) (a b : AbsAtom α) :
    Except PyErr (World α × AbsAtom α) :=
  if a.kind = AtomKind.hookAtom then
    if b.kind = AtomKind.hookAtom then
      if a.groupby = b.groupby then
        mkAtom w .hookAtom (.conj a.policy b.policy) a.groupby
      else .error (.assertionError "hook '&': groupby mismatch")
    else .error (.assertionError "hook '&': operand not a hook")
  else
    if b.kind = a.kind then mkAtom w a.kind (.conj a.policy b.policy) []
    else .error (.typeError "'&' operator on atoms of different types")

/-- `abstract_atom.__or__` (path.py:571-579) and the overriding
`hook.__or__` (path.py:642-645), restricted to atom operands. -/
def atom_or (w : World α) (a b : AbsAtom α) :
    Except PyErr (World α × AbsAtom α) :=
  if a.kind = AtomKind.hookAtom then
    if b.kind = AtomKind.hookAtom then
      if a.groupby = b.groupby then
        mkAtom w .hookAtom (.disj a.policy b.policy) a.groupby
      else .error (.assertionError "hook '|': groupby mismatch")
    else .error (.assertionError "hook '|': operand not a hook")
  else
    if b.kind = a.kind then mkAtom w a.kind (.disj a.policy b.policy) []
    else .error (.typeError "'|' operator on atoms of different types")

/-- The tagging rule emitted for a DFA edge `(src, dst, symbol)`:
`(match(path_tag=src) ∧ pred(symbol)) >> modify(path_tag=dst)`. -/
def tagRule {Q : Type} (w : World α) (d : ModelDFA Q) (e : Q × Q × Nat) : Pol α :=
  .seq (.conjP (match_tag d e.1) (.filterPol (get_sym_pred w e.2.2))) (set_tag d e.2.1)

/-- The capture rules emitted for a DFA edge: one per accepted regex ordinal
of the destination, `(match(path_tag=src) ∧ pred(symbol)) >> sink_i`. -/
def capRules {Q : Type} (w : World α) (d : ModelDFA Q) (pol_list : List (Pol α))
    (e : Q × Q × Nat) : List (Pol α) :=
  if d.isAccepting e.2.1 then
    (d.acceptingExps e.2.1).map fun i =>
      .seq (.conjP (match_tag d e.1) (.filterPol (get_sym_pred w e.2.2)))
        (pol_list.getD i .drop)
  else []

/-- A small concrete DFA interface value for witnesses. -/
def dfaW : ModelDFA Nat :=
  ⟨[(0, 1, 49)], id, fun q => decide (q = 0), fun q => decide (q = 1),
    fun _ => [0], 0⟩

/-- A hook atom literal, as produced by constructing `hook(match {0}, [5])`
on a cleared table. -/
def hookCex : AbsAtom (Fin 1) :=
  ⟨.hookAtom, .base {0}, .symbol 49 [0], [5]⟩

/-- An ingress atom literal with the same predicate. -/
def ingCex : AbsAtom (Fin 1) :=
  ⟨.ingress, .base {0}, .symbol 49 [1], []⟩

/-- The symbols of the leaf entries, in table order. -/
def leafSyms (w : World α) : List Nat := w.leaves.map (fun e => e.2.1)

/-- The `symbol_to_pred` direction of the table: the predicate bound to a
symbol, if any. -/
def symPred (w : World α) (s : Nat) : Option (Pred α) :=
  (w.leaves.find? (fun e => decide (e.2.1 = s))).map (·.1)

/-- The packets denoted by one symbol: its leaf predicate's denotation, or
none when the symbol is unbound. -/
def symSem (w : World α) (s : Nat) : Finset α :=
  ((symPred w s).map sem).getD ∅

/-- The union of the denotations of a list of symbols. -/
def listSymSem (w : World α) (l : List Nat) : Finset α :=
  l.foldr (fun s acc => symSem w s ∪ acc) ∅

/-- The language denoted by a tree's alphabet under the current leaf
partition: the union of the leaf predicates of the symbols occurring in
it (every tree stored by an atom denotes a one-letter language, so this is
the predicate the tree stands for). -/
def treeSem (w : World α) (t : Re) : Finset α :=
  listSymSem w (treeSyms t)

/-- The structural well-formedness of the symbol table and the stored
trees: distinct predicate keys, distinct bounded symbols, flat trees over
bounded symbols, metadata consistency (an atom whose tree mentions a leaf's
symbol is recorded in that leaf's atom list), and pairwise-disjoint leaf
denotations. -/
structure StInv (w : World α) : Prop where
  preds_nodup : (w.leaves.map (fun e => e.1)).Nodup
  syms_nodup : (leafSyms w).Nodup
  syms_le : ∀ s ∈ leafSyms w, s ≤ w.token
  tree_flat : ∀ i : Nat, flatRe (getTree w i) = true
  tree_syms_le : ∀ i : Nat, ∀ cm ∈ symMetas (getTree w i), cm.1 ≤ w.token
  meta_consistent : ∀ e ∈ w.leaves, ∀ i : Nat,
    e.2.1 ∈ treeSyms (getTree w i) → i ∈ e.2.2
  disj : w.leaves.Pairwise (fun e1 e2 => sem e1.1 ∩ sem e2.1 = ∅)

/-- The full invariant after constructing the atoms of predicate list `ps`
(atom ids are positions in `ps`). -/
structure Inv (ps : List (Pred α)) (w : World α) : Prop where
  core : StInv w
  len_eq : w.trees.length = ps.length
  atoms_lt : ∀ e ∈ w.leaves, ∀ a ∈ e.2.2, a < ps.length
  atoms_nodup : ∀ e ∈ w.leaves, e.2.2.Nodup
  sem_pres : ∀ i, i < ps.length →
    treeSem w (getTree w i) = sem (ps.getD i (Pred.base ∅))
  sat : (∀ p ∈ ps, sem p ≠ ∅) → ∀ e ∈ w.leaves, sem e.1 ≠ ∅

/-- The invariant threaded through the `get_re_tree` loop while constructing
atom `ps.length` with original predicate `q0`: `rest` is the remaining part
of the snapshot of leaf predicates, `np` the residual new predicate, `acc`
the accumulated tree. -/
structure LoopInv (ps : List (Pred α)) (q0 : Pred α) (rest : List (Pred α))
    (np : Pred α) (acc : Re) (w : World α) : Prop where
  core : StInv w
  len_eq : w.trees.length = ps.length
  atoms_le : ∀ e ∈ w.leaves, ∀ a ∈ e.2.2, a ≤ ps.length
  atoms_nodup : ∀ e ∈ w.leaves, e.2.2.Nodup
  sem_pres : ∀ i, i < ps.length →
    treeSem w (getTree w i) = sem (ps.getD i (Pred.base ∅))
  sat : (∀ p ∈ ps ++ [q0], sem p ≠ ∅) → ∀ e ∈ w.leaves, sem e.1 ≠ ∅
  snap_nodup : rest.Nodup
  rest_entries : ∀ p ∈ rest, ∃ e ∈ w.leaves, e.1 = p ∧
    ∀ a ∈ e.2.2, a < ps.length
  acc_flat : flatRe acc = true
  acc_sem : treeSem w acc ∪ sem np = sem q0
  acc_syms_le : ∀ cm ∈ symMetas acc, cm.1 ≤ w.token
  acc_meta : ∀ e ∈ w.leaves, e.2.1 ∈ treeSyms acc → ps.length ∈ e.2.2
  acc_live : ∀ cm ∈ symMetas acc, ∃ e ∈ w.leaves, e.2.1 = cm.1 ∧ e.1 ∉ rest
  np_disj : ∀ e ∈ w.leaves, sem np ∩ sem e.1 = ∅ ∨ e.1 ∈ rest
  np_sat : sem q0 ≠ ∅ → sem np ≠ ∅

/-- What holds of the tree returned by `get_re_tree` for the new atom
(id `ps.length`, original predicate `q0`) and of the state left behind. -/
structure PostTree (ps : List (Pred α)) (q0 : Pred α) (t : Re) (w : World α) :
    Prop where
  core : StInv w
  len_eq : w.trees.length = ps.length
  atoms_le : ∀ e ∈ w.leaves, ∀ a ∈ e.2.2, a ≤ ps.length
  atoms_nodup : ∀ e ∈ w.leaves, e.2.2.Nodup
  sem_pres : ∀ i, i < ps.length →
    treeSem w (getTree w i) = sem (ps.getD i (Pred.base ∅))
  sat : (∀ p ∈ ps ++ [q0], sem p ≠ ∅) → ∀ e ∈ w.leaves, sem e.1 ≠ ∅
  t_flat : flatRe t = true
  t_sem : treeSem w t = sem q0
  t_syms_le : ∀ cm ∈ symMetas t, cm.1 ≤ w.token
  t_meta : ∀ e ∈ w.leaves, e.2.1 ∈ treeSyms t → ps.length ∈ e.2.2

/-- What the add-add-replace-delete sequence of a `superset`/`intersects`
arm does to the state: the processed leaf `(pred, sp, Ap)` is replaced by
two fresh-symbol leaves, the trees of atoms in `Ap` have `sp` substituted,
and every other symbol's denotation is unchanged. -/
structure SplitOut (w w6 : World α) (pred : Pred α) (sp : Nat)
    (Ap : List Nat) (q1 q2 : Pred α) (A2 : List Nat) : Prop where
  core : StInv w6
  token_eq : w6.token = w.token + 2
  trees_len : w6.trees.length = w.trees.length
  tree_sem : ∀ i, treeSem w6 (getTree w6 i) = treeSem w (getTree w i)
  sym_stable : ∀ s, s ≤ w.token → s ≠ sp → symSem w6 s = symSem w s
  q1_sem : symSem w6 (w.token + 1) = sem q1
  q2_sem : symSem w6 (w.token + 2) = sem q2
  mem_split : ∀ e ∈ w6.leaves, (e ∈ w.leaves ∧ e.1 ≠ pred) ∨
    e = (q1, w.token + 1, Ap) ∨ e = (q2, w.token + 2, A2)
  mem_back : ∀ e ∈ w.leaves, e.1 ≠ pred → e ∈ w6.leaves
  mem_new : (q1, w.token + 1, Ap) ∈ w6.leaves ∧
    (q2, w.token + 2, A2) ∈ w6.leaves
  fresh_keys : (∀ e ∈ w.leaves, e.1 ≠ q1) ∧ (∀ e ∈ w.leaves, e.1 ≠ q2)
  tree_syms_new : ∀ i, ∀ cm ∈ symMetas (getTree w6 i),
    cm.1 ∈ treeSyms (getTree w i) ∨ cm.1 = w.token + 1 ∨ cm.1 = w.token + 2
  new_sym_mem : ∀ i, (w.token + 1 ∈ treeSyms (getTree w6 i) ∨
      w.token + 2 ∈ treeSyms (getTree w6 i)) → i ∈ Ap

/-- The final state of the run `[atom({0}), atom(∅)]` over `Fin 2`: the
second atom's unsatisfiable predicate is stored as a leaf. -/
def c2w : World (Fin 2) :=
  ⟨51, [(.conj (.base {0}) (.compl (.base ∅)), 50, [0]), (.base ∅, 51, [0, 1])],
    [.alter [.symbol 50 [0], .symbol 51 [0]], .symbol 51 [1]]⟩

/-- The final state of the run `[atom({0,1}), atom({0})]` over `Fin 2`
(a superset split): atom 0's original predicate is now covered by the two
leaves `{0,1}∧¬{0}` and `{0}`. -/
def c1w : World (Fin 2) :=
  ⟨51, [(.conj (.base {0, 1}) (.compl (.base {0})), 50, [0]),
    (.base {0}, 51, [0, 1])],
    [.alter [.symbol 50 [0], .symbol 51 [0]], .symbol 51 [1]]⟩

/-- The final state of the run `[atom({0})]` over `Fin 2`. -/
def c2w2 : World (Fin 2) := ⟨49, [(.base {0}, 49, [0])], [.symbol 49 [0]]⟩

/-- A concrete three-leaf table over `Fin 3` for exercising
`__replace_pred__`: atom 0 references symbol 49, whose predicate is about to
be split into the predicates of symbols 50 and 51. -/
def c5w : World (Fin 3) :=
  ⟨51, [(.base {0}, 49, [0]), (.base {1}, 50, []), (.base {2}, 51, [])],
    [.symbol 49 [0]]⟩

/-- The state `c5w` after `__replace_pred__` rewrites atom 0's tree. -/
def c5w2 : World (Fin 3) :=
  ⟨51, [(.base {0}, 49, [0]), (.base {1}, 50, []), (.base {2}, 51, [])],
    [.alter [.symbol 50 [0], .symbol 51 [0]]]⟩

/-! ### Helper lemmas -/

theorem inter_compl_empty_iff (s t : Finset α) : s ∩ tᶜ = ∅ ↔ s ⊆ t := by
  constructor
  · intro h x hx
    by_contra hxt
    have hmem : x ∈ s ∩ tᶜ := Finset.mem_inter.2 ⟨hx, Finset.mem_compl.2 hxt⟩
    simp [h] at hmem
  · intro h
    ext x
    simp only [Finset.mem_inter, Finset.mem_compl, Finset.not_mem_empty, iff_false]
    rintro ⟨hx, hxt⟩
    exact hxt (h hx)

theorem foldr_union_init (l : List (Pred α)) (A B : Finset α) :
    l.foldr (fun x acc => sem x ∪ acc) (A ∪ B) =
      A ∪ l.foldr (fun x acc => sem x ∪ acc) B := by
  induction l with
  | nil => rfl
  | cons y l ih => simp [List.foldr_cons, ih, Finset.union_left_comm]

theorem sem_foldl_disj (ps : List (Pred α)) (p : Pred α) :
    sem (ps.foldl (fun a x => .disj a x) p) =
      ps.foldr (fun x acc => sem x ∪ acc) (sem p) := by
  induction ps generalizing p with
  | nil => simp
  | cons x ps ih =>
      simp only [List.foldl_cons, List.foldr_cons]
      rw [ih]
      show ps.foldr (fun x acc => sem x ∪ acc) (sem p ∪ sem x) = _
      rw [Finset.union_comm (sem p) (sem x), foldr_union_init ps (sem x) (sem p)]

/-! ### Claim C10 -/

/-- Claim C10: `re_tree_gen.get_unaffected_pred` returns the identity
predicate (matching every packet) when no leaf predicate is stored, and the
negation of the disjunction of all stored leaf predicates when at least one
leaf entry exists (so its denotation is always the complement of the union of
the stored leaf predicates' denotations). -/
theorem unaffected_pred_spec (w : World α) :
    (w.leaves = [] → get_unaffected_pred w = identity) ∧
    sem (get_unaffected_pred w) =
      (w.leaves.foldr (fun e acc => sem e.1 ∪ acc) ∅)ᶜ := by
  constructor
  · intro h
    simp [get_unaffected_pred, h]
  · cases hw : w.leaves with
    | nil => simp [get_unaffected_pred, hw, identity, sem]
    | cons e es =>
        have hmap : w.leaves.map (·.1) = e.1 :: es.map (·.1) := by simp [hw]
        simp only [get_unaffected_pred, hmap, sem]
        rw [sem_foldl_disj]
        congr 1
        have hfold : ∀ (l : List (Pred α × Nat × List Nat)) (B : Finset α),
            l.foldr (fun x acc => sem x.1 ∪ acc) B =
              (l.map (·.1)).foldr (fun x acc => sem x ∪ acc) B := by
          intro l B
          induction l with
          | nil => rfl
          | cons y l ih => simp [List.foldr_cons, ih]
        have h2 := foldr_union_init (es.map (·.1)) (sem e.1) ∅
        rw [Finset.union_empty] at h2
        rw [h2, List.foldr_cons, hfold es ∅]

/-- Witness for C10: on an empty table the identity predicate is returned. -/
theorem unaffected_pred_spec_witness :
    get_unaffected_pred (clearST : World (Fin 2)) = identity :=
  (unaffected_pred_spec clearST).1 rfl

/-! ### Claim C6 -/

/-- Claim C6: for every pair of satisfiable predicates,
`classifier_utils.get_overlap_mode` returns `(is_equal, is_superset,
is_subset, intersects)` with at most one component true; `is_equal` iff the
predicates are semantically equal, `is_superset` iff `pred` strictly contains
`new_pred`, `is_subset` iff `pred` is strictly contained in `new_pred`,
`intersects` iff they overlap with neither containing the other, and all four
components are false iff the conjunction is unsatisfiable. -/
theorem get_overlap_mode_spec (p q : Pred α)
    (hp : sem p ≠ ∅) (hq : sem q ≠ ∅) :
    ([(get_overlap_mode p q).1, (get_overlap_mode p q).2.1,
        (get_overlap_mode p q).2.2.1, (get_overlap_mode p q).2.2.2].count true ≤ 1) ∧
    ((get_overlap_mode p q).1 = true ↔ sem p = sem q) ∧
    ((get_overlap_mode p q).2.1 = true ↔ sem q ⊂ sem p) ∧
    ((get_overlap_mode p q).2.2.1 = true ↔ sem p ⊂ sem q) ∧
    ((get_overlap_mode p q).2.2.2 = true ↔
      (sem p ∩ sem q ≠ ∅ ∧ ¬ sem p ⊆ sem q ∧ ¬ sem q ⊆ sem p)) ∧
    (((get_overlap_mode p q).1 = false ∧ (get_overlap_mode p q).2.1 = false ∧
        (get_overlap_mode p q).2.2.1 = false ∧ (get_overlap_mode p q).2.2.2 = false) ↔
      sem p ∩ sem q = ∅) := by
  have hpc : sem (Pred.conj p (.compl q)) = sem p ∩ (sem q)ᶜ := rfl
  have hcq : sem (Pred.conj (.compl p) q) = (sem p)ᶜ ∩ sem q := rfl
  have hsub1 : sem p ∩ (sem q)ᶜ = ∅ ↔ sem p ⊆ sem q := inter_compl_empty_iff _ _
  have hsub2 : (sem p)ᶜ ∩ sem q = ∅ ↔ sem q ⊆ sem p := by
    rw [Finset.inter_comm]; exact inter_compl_empty_iff _ _
  have hss : ∀ s t : Finset α, s ⊂ t ↔ s ⊆ t ∧ ¬ t ⊆ s := fun s t =>
    ssubset_iff_subset_not_subset
  by_cases h1 : sem p ⊆ sem q <;> by_cases h2 : sem q ⊆ sem p
  · -- equal
    have heq : sem p = sem q := Finset.Subset.antisymm h1 h2
    have hne : sem p ∩ sem q ≠ ∅ := by
      rw [heq, Finset.inter_self]; exact hq
    have hcond : (!has_nonempty_intersection p (.compl q)
        && !has_nonempty_intersection (.compl p) q) = true := by
      simp [has_nonempty_intersection, is_not_drop, hpc, hcq, hsub1.2 h1, hsub2.2 h2]
    rw [get_overlap_mode, if_pos hcond]
    refine ⟨by decide, by simp [heq], ?_, ?_, by simp [h1], ?_⟩
    · simp only [Bool.false_eq_true, false_iff]
      exact fun h => ((hss _ _).1 h).2 h1
    · simp only [Bool.false_eq_true, false_iff]
      exact fun h => ((hss _ _).1 h).2 h2
    · simp [hne]
  · -- strict subset: p under q
    have hint : sem p ∩ sem q ≠ ∅ := by
      rw [Finset.inter_eq_left.2 h1]; exact hp
    have hne_eq : sem p ≠ sem q := fun h => h2 h.ge
    rw [get_overlap_mode, if_neg ?c1, if_neg ?c2, if_pos ?c3]
    case c1 => simp [has_nonempty_intersection, is_not_drop, hpc, hcq, hsub1, hsub2, h1, h2]
    case c2 => simp [has_nonempty_intersection, is_not_drop, hcq, hsub2, h2]
    case c3 => simp [has_nonempty_intersection, is_not_drop, hpc, hsub1, h1]
    refine ⟨by decide, by simp [hne_eq], ?_, ?_, ?_, by simp [hint]⟩
    · simp only [Bool.false_eq_true, false_iff]
      exact fun h => h2 ((hss _ _).1 h).1
    · simp only [true_iff]
      exact (hss _ _).2 ⟨h1, h2⟩
    · simp only [Bool.false_eq_true, false_iff]
      intro h
      exact h.2.1 h1
  · -- strict superset: q under p
    have hint : sem p ∩ sem q ≠ ∅ := by
      rw [Finset.inter_eq_right.2 h2]; exact hq
    have hne_eq : sem p ≠ sem q := fun h => h1 h.le
    rw [get_overlap_mode, if_neg ?d1, if_pos ?d2]
    case d1 => simp [has_nonempty_intersection, is_not_drop, hpc, hcq, hsub1, hsub2, h1, h2]
    case d2 => simp [has_nonempty_intersection, is_not_drop, hcq, hsub2, h2]
    refine ⟨by decide, by simp [hne_eq], ?_, ?_, ?_, by simp [hint]⟩
    · simp only [true_iff]
      exact (hss _ _).2 ⟨h2, h1⟩
    · simp only [Bool.false_eq_true, false_iff]
      exact fun h => h1 ((hss _ _).1 h).1
    · simp only [Bool.false_eq_true, false_iff]
      intro h
      exact h.2.2 h2
  · -- incomparable: intersects or disjoint
    have hnss1 : ¬ sem p ⊂ sem q := fun h => h1 ((hss _ _).1 h).1
    have hnss2 : ¬ sem q ⊂ sem p := fun h => h2 ((hss _ _).1 h).1
    have hne_eq : sem p ≠ sem q := fun h => h1 (le_of_eq h)
    rw [get_overlap_mode, if_neg ?e1, if_neg ?e2, if_neg ?e3]
    case e1 => simp [has_nonempty_intersection, is_not_drop, hpc, hcq, hsub1, hsub2, h1, h2]
    case e2 => simp [has_nonempty_intersection, is_not_drop, hcq, hsub2, h2]
    case e3 => simp [has_nonempty_intersection, is_not_drop, hpc, hsub1, h1]
    by_cases h3 : sem p ∩ sem q = ∅
    · rw [if_neg (by simp [has_nonempty_intersection, is_not_drop, sem, h3])]
      exact ⟨by decide, by simp [hne_eq], by simp [hnss2], by simp [hnss1],
        by simp [h3], by simp [h3]⟩
    · rw [if_pos (by simp [has_nonempty_intersection, is_not_drop, sem, h3])]
      exact ⟨by decide, by simp [hne_eq], by simp [hnss2], by simp [hnss1],
        by simp [h3, h1, h2], by simp [h3]⟩

/-- Witness for C6: two satisfiable, incomparable, overlapping predicates
over `Fin 3` classify as `intersects`. -/
theorem get_overlap_mode_spec_witness :
    (sem (Pred.base {0, 1} : Pred (Fin 3)) ≠ ∅) ∧
    (sem (Pred.base {1, 2} : Pred (Fin 3)) ≠ ∅) ∧
    ((get_overlap_mode (Pred.base {0, 1} : Pred (Fin 3)) (Pred.base {1, 2})).2.2.2 = true ↔
      (sem (Pred.base {0, 1} : Pred (Fin 3)) ∩ sem (Pred.base {1, 2} : Pred (Fin 3)) ≠ ∅ ∧
       ¬ sem (Pred.base {0, 1} : Pred (Fin 3)) ⊆ sem (Pred.base {1, 2} : Pred (Fin 3)) ∧
       ¬ sem (Pred.base {1, 2} : Pred (Fin 3)) ⊆ sem (Pred.base {0, 1} : Pred (Fin 3)))) :=
  ⟨by decide, by decide,
    (get_overlap_mode_spec (Pred.base {0, 1}) (Pred.base {1, 2})
      (by decide) (by decide)).2.2.2.2.1⟩

/-! ### Claim C9 -/

/-- Claim C9: `pathcomp` encodes DFA state index 0 as the absence of the
`path_tag` header: `__match_tag__` and `__set_tag__` return
`match(path_tag=None)` and `modify(path_tag=None)` exactly when the state's
index is 0, and match/modify with the integer index for every other state;
consequently the dead-state predicate is the untagged match precisely when
the dead state has index 0. -/
theorem tag_encoding_spec {Q : Type} (d : ModelDFA Q) :
    (∀ q, (match_tag d q : Pol α) = .matchTag none ↔ d.stateIndex q = 0) ∧
    (∀ q, (set_tag d q : Pol α) = .setTag none ↔ d.stateIndex q = 0) ∧
    (∀ q, d.stateIndex q ≠ 0 →
      (match_tag d q : Pol α) = .matchTag (some (d.stateIndex q)) ∧
      (set_tag d q : Pol α) = .setTag (some (d.stateIndex q))) ∧
    ((get_dead_state_pred d : Pol α) = .matchTag none ↔
      d.stateIndex d.deadState = 0) := by
  have hm : ∀ q, (match_tag d q : Pol α) = .matchTag none ↔ d.stateIndex q = 0 := by
    intro q
    by_cases h : d.stateIndex q = 0 <;> simp [match_tag, h]
  refine ⟨hm, ?_, ?_, ?_⟩
  · intro q
    by_cases h : d.stateIndex q = 0 <;> simp [set_tag, h]
  · intro q hq
    exact ⟨by simp [match_tag, hq], by simp [set_tag, hq]⟩
  · exact hm d.deadState

/-- Witness for C9: on a concrete DFA, state 1 is matched and set through
its integer index. -/
theorem tag_encoding_spec_witness :
    (match_tag dfaW 1 : Pol (Fin 1)) = .matchTag (some 1) ∧
    (set_tag dfaW 1 : Pol (Fin 1)) = .setTag (some 1) :=
  (tag_encoding_spec dfaW).2.2.1 1 (by decide)

/-! ### Claim C7 -/

theorem summands_match_tag {Q : Type} (d : ModelDFA Q) (q : Q) :
    summands (match_tag d q : Pol α) = [match_tag d q] := by
  by_cases h : d.stateIndex q = 0 <;> simp [match_tag, h, summands]

theorem summands_foldl_par {β : Type} (c0 : Pol α) (l : List β) (f : β → Pol α)
    (hf : ∀ b, summands (f b) = [f b]) :
    summands (l.foldl (fun c i => .par c (f i)) c0) = summands c0 ++ l.map f := by
  induction l generalizing c0 with
  | nil => simp
  | cons x l ih =>
      simp only [List.foldl_cons, List.map_cons]
      rw [ih]
      simp [summands, hf x]

theorem compile_fold {Q : Type} (w : World α) (d : ModelDFA Q)
    (pol_list : List (Pol α)) (edges : List (Q × Q × Nat)) (tc : Pol α × Pol α) :
    summands (edges.foldl (compileStep w d pol_list) tc).1 =
      summands tc.1 ++
        (edges.filter (fun e => !d.isDead e.1)).map (tagRule w d) ∧
    summands (edges.foldl (compileStep w d pol_list) tc).2 =
      summands tc.2 ++ edges.flatMap (capRules w d pol_list) := by
  induction edges generalizing tc with
  | nil => simp
  | cons e es ih =>
      simp only [List.foldl_cons]
      obtain ⟨ih1, ih2⟩ := ih (compileStep w d pol_list tc e)
      have hstep1 : summands (compileStep w d pol_list tc e).1 =
          summands tc.1 ++ (if d.isDead e.1 then [] else [tagRule w d e]) := by
        by_cases h : d.isDead e.1 <;> simp [compileStep, h, summands, tagRule]
      have hstep2 : summands (compileStep w d pol_list tc e).2 =
          summands tc.2 ++ capRules w d pol_list e := by
        by_cases h : d.isAccepting e.2.1
        · simp only [compileStep, h, if_true, capRules]
          rw [summands_foldl_par]
          intro b
          rfl
        · simp [compileStep, h, capRules]
      constructor
      · rw [ih1, hstep1, List.filter_cons]
        by_cases h : d.isDead e.1 <;> simp [h, List.append_assoc]
      · rw [ih2, hstep2, List.flatMap_cons, List.append_assoc]

/-- Claim C7: for every DFA edge `(src, dst, σ)` whose source is not the
dead state, `pathcomp.compile` adds to the tagging policy the rule
`(match_tag(src) ∧ pred(σ)) >> set_tag(dst)` (where `pred(σ)` is the
`symbol_to_pred` lookup of `σ`), edges with dead source contribute no
tagging rule, and for every edge with accepting destination and every
ordinal `i` of the destination the capture policy receives
`(match_tag(src) ∧ pred(σ)) >> sink_i`: the parallel summands of the
compiled pair are exactly the dead-state match, the per-edge tagging rules
of non-dead sources, and the unaffected predicate; and `drop` followed by
the per-edge capture rules. -/
theorem compile_rules_spec {Q : Type} (w : World α) (d : ModelDFA Q)
    (pol_list : List (Pol α)) :
    summands (compileDFA w d pol_list).1 =
      get_dead_state_pred d ::
        ((d.edges.filter (fun e => !d.isDead e.1)).map (tagRule w d) ++
          [.filterPol (get_unaffected_pred w)]) ∧
    summands (compileDFA w d pol_list).2 =
      Pol.drop :: d.edges.flatMap (capRules w d pol_list) := by
  obtain ⟨h1, h2⟩ := compile_fold w d pol_list d.edges (get_dead_state_pred d, .drop)
  constructor
  · show summands (.par _ _) = _
    simp only [summands]
    rw [h1]
    rw [show summands (get_dead_state_pred d : Pol α) = [get_dead_state_pred d] from
      summands_match_tag d d.deadState]
    simp
  · show summands (d.edges.foldl (compileStep w d pol_list)
      (get_dead_state_pred d, .drop)).2 = _
    rw [h2]
    rfl

/-! ### Claim C8 -/

theorem mkAtom_ok (w : World α) (kind : AtomKind) (m : Pred α)
    (g : List Nat) (w' : World α) (c : AbsAtom α)
    (h : mkAtom w kind m g = .ok (w', c)) :
    c.kind = kind ∧ c.policy = m ∧ c.groupby = g := by
  unfold mkAtom at h
  split at h
  · exact absurd h (by simp)
  · cases hg : get_re_tree w m w.trees.length with
    | error e => rw [hg] at h; exact absurd h (by simp)
    | ok tw =>
        obtain ⟨t, w1⟩ := tw
        rw [hg] at h
        simp only [Except.ok.injEq, Prod.mk.injEq] at h
        rw [← h.2]
        exact ⟨rfl, rfl, rfl⟩

/-- Claim C8 (amended): for two atoms of different concrete kinds the
operators `&` and `|` fail — with a `TypeError` when the left operand is not
a hook, and with a failed `isinstance` assertion when it is (the overriding
`hook.__and__`/`hook.__or__` use `assert`, not `raise TypeError`); for two
atoms of the same concrete kind, whenever construction succeeds the result
is a new atom of that same kind whose predicate is the conjunction
(resp. disjunction) of the two predicates. -/
theorem atom_algebra_spec (w : World α) (a b : AbsAtom α) :
    (a.kind ≠ AtomKind.hookAtom → a.kind ≠ b.kind →
      atom_and w a b = .error (.typeError "'&' operator on atoms of different types") ∧
      atom_or w a b = .error (.typeError "'|' operator on atoms of different types")) ∧
    (a.kind = AtomKind.hookAtom → b.kind ≠ AtomKind.hookAtom →
      atom_and w a b = .error (.assertionError "hook '&': operand not a hook") ∧
      atom_or w a b = .error (.assertionError "hook '|': operand not a hook")) ∧
    (a.kind = b.kind →
      (∀ w' c, atom_and w a b = .ok (w', c) →
        c.kind = a.kind ∧ c.policy = .conj a.policy b.policy) ∧
      (∀ w' c, atom_or w a b = .ok (w', c) →
        c.kind = a.kind ∧ c.policy = .disj a.policy b.policy)) := by
  refine ⟨?_, ?_, ?_⟩
  · intro hna hne
    constructor
    · unfold atom_and
      rw [if_neg hna, if_neg (Ne.symm hne)]
    · unfold atom_or
      rw [if_neg hna, if_neg (Ne.symm hne)]
  · intro hh hb
    constructor
    · unfold atom_and
      rw [if_pos hh, if_neg hb]
    · unfold atom_or
      rw [if_pos hh, if_neg hb]
  · intro hk
    constructor
    · intro w' c h
      unfold atom_and at h
      split at h
      · split at h
        · split at h
          · rename_i hhook _ _
            have := mkAtom_ok _ _ _ _ _ _ h
            exact ⟨this.1.trans hhook.symm, this.2.1⟩
          · exact absurd h (by simp)
        · exact absurd h (by simp)
      · split at h
        · have := mkAtom_ok _ _ _ _ _ _ h
          exact ⟨this.1, this.2.1⟩
        · exact absurd h (by simp)
    · intro w' c h
      unfold atom_or at h
      split at h
      · split at h
        · split at h
          · rename_i hhook _ _
            have := mkAtom_ok _ _ _ _ _ _ h
            exact ⟨this.1.trans hhook.symm, this.2.1⟩
          · exact absurd h (by simp)
        · exact absurd h (by simp)
      · split at h
        · have := mkAtom_ok _ _ _ _ _ _ h
          exact ⟨this.1, this.2.1⟩
        · exact absurd h (by simp)

/-- Counterexample to C8 as stated: `&` between a hook and an ingress atom
raises `AssertionError` (from `assert isinstance(other, hook)`), not
`TypeError`. -/
theorem atom_algebra_cex :
    atom_and (clearST : World (Fin 1)) hookCex ingCex =
      .error (.assertionError "hook '&': operand not a hook") ∧
    (match atom_and (clearST : World (Fin 1)) hookCex ingCex with
     | .error (.typeError _) => False
     | _ => True) :=
  ⟨rfl, by trivial⟩

/-- Witness for C8: conjoining two ingress atoms over `Fin 1` succeeds and
produces an ingress atom whose predicate is the conjunction. -/
theorem atom_algebra_spec_witness :
    (AbsAtom.mk AtomKind.ingress (Pred.conj (Pred.base {0}) (identity : Pred (Fin 1)))
        (Re.symbol 49 [0]) []).kind = (AbsAtom.mk AtomKind.ingress (Pred.base {0})
        (Re.symbol 48 [7]) [] : AbsAtom (Fin 1)).kind ∧
    (AbsAtom.mk AtomKind.ingress (Pred.conj (Pred.base {0}) (identity : Pred (Fin 1)))
        (Re.symbol 49 [0]) []).policy =
      Pred.conj (AbsAtom.mk AtomKind.ingress (Pred.base {0})
        (Re.symbol 48 [7]) [] : AbsAtom (Fin 1)).policy
        (AbsAtom.mk AtomKind.ingress (identity : Pred (Fin 1)) (Re.symbol 48 [8]) []).policy :=
  ((atom_algebra_spec clearST
      (AbsAtom.mk AtomKind.ingress (Pred.base {0}) (Re.symbol 48 [7]) [])
      (AbsAtom.mk AtomKind.ingress identity (Re.symbol 48 [8]) [])).2.2 rfl).1
    ⟨49, [(Pred.conj (Pred.base {0}) identity, 49, [0])], [Re.symbol 49 [0]]⟩
    (AbsAtom.mk AtomKind.ingress (Pred.conj (Pred.base {0}) identity)
      (Re.symbol 49 [0]) [])
    (by rfl)

/-! ### Flat-tree lemmas for the replacement walk -/

theorem symMetasList_append (l1 l2 : List Re) :
    symMetasList (l1 ++ l2) = symMetasList l1 ++ symMetasList l2 := by
  induction l1 with
  | nil => rfl
  | cons r rs ih => simp [symMetasList, ih]

theorem symMetas_reUnion (a b : Re) :
    symMetas (reUnion a b) = symMetas a ++ symMetas b := by
  cases a <;> cases b <;>
    simp [reUnion, symMetas, symMetasList, symMetasList_append]

theorem flat_reUnion (a b : Re) (ha : flatRe a = true) (hb : flatRe b = true) :
    flatRe (reUnion a b) = true := by
  cases a <;> cases b <;>
    simp_all [reUnion, flatRe, isSymbol, List.all_append]

theorem replace_node_empty (R : Re) (s : Nat) :
    replace_node R s .empty =
      .error (.typeError "Trees are only allowed to have alternation!") := rfl

theorem new_metadata_list_char (m : List Nat) (l : List Re) (acc t' : Re)
    (hl : l.all isSymbol = true)
    (h : new_metadata_list m l acc = .ok t') :
    symMetas t' = symMetas acc ++ (symMetasList l).map (fun cm => (cm.1, m)) ∧
    (flatRe acc = true → flatRe t' = true) := by
  induction l generalizing acc with
  | nil =>
      simp only [new_metadata_list, Except.ok.injEq] at h
      subst h
      simp [symMetasList]
  | cons r rs ih =>
      rw [List.all_cons, Bool.and_eq_true] at hl
      obtain ⟨hr, hrs⟩ := hl
      cases r with
      | symbol c meta =>
          simp only [new_metadata_list, new_metadata_tree] at h
          by_cases hmeta : meta = []
          · rw [if_pos hmeta] at h
            obtain ⟨h1, h2⟩ := ih (reUnion acc (.symbol c m)) hrs h
            refine ⟨?_, ?_⟩
            · rw [h1, symMetas_reUnion]
              simp [symMetas, symMetasList, List.append_assoc]
            · intro hacc
              exact h2 (flat_reUnion _ _ hacc rfl)
          · rw [if_neg hmeta] at h
            exact absurd h (by simp)
      | empty => exact absurd hr (by simp [isSymbol])
      | epsilon => exact absurd hr (by simp [isSymbol])
      | alter l2 => exact absurd hr (by simp [isSymbol])
      | cat l2 => exact absurd hr (by simp [isSymbol])
      | star r2 => exact absurd hr (by simp [isSymbol])

theorem new_metadata_tree_char (m : List Nat) (t t' : Re)
    (hf : flatRe t = true)
    (h : new_metadata_tree m t = .ok t') :
    symMetas t' = (symMetas t).map (fun cm => (cm.1, m)) ∧ flatRe t' = true := by
  cases t with
  | symbol c meta =>
      simp only [new_metadata_tree] at h
      by_cases hmeta : meta = []
      · rw [if_pos hmeta] at h
        simp only [Except.ok.injEq] at h
        subst h
        exact ⟨rfl, rfl⟩
      · rw [if_neg hmeta] at h
        exact absurd h (by simp)
  | alter l =>
      simp only [new_metadata_tree] at h
      have hl : l.all isSymbol = true := by simpa [flatRe] using hf
      obtain ⟨h1, h2⟩ := new_metadata_list_char m l .empty t' hl h
      exact ⟨by simpa [symMetas] using h1, h2 rfl⟩
  | empty => exact absurd h (by simp [new_metadata_tree])
  | epsilon => exact absurd h (by simp [new_metadata_tree])
  | cat l => exact absurd h (by simp [new_metadata_tree])
  | star r => exact absurd h (by simp [new_metadata_tree])

theorem replace_list_char (R : Re) (s : Nat) (l : List Re) (acc t' : Re)
    (hR : flatRe R = true) (hl : l.all isSymbol = true)
    (h : replace_list R s l acc = .ok t') :
    symMetas t' = symMetas acc ++ (symMetasList l).flatMap (substSym s R) ∧
    (flatRe acc = true → flatRe t' = true) := by
  induction l generalizing acc with
  | nil =>
      simp only [replace_list, Except.ok.injEq] at h
      subst h
      simp [symMetasList]
  | cons r rs ih =>
      rw [List.all_cons, Bool.and_eq_true] at hl
      obtain ⟨hr, hrs⟩ := hl
      cases r with
      | symbol c meta =>
          simp only [replace_list, replace_node] at h
          by_cases hc : c = s
          · rw [if_pos hc] at h
            cases hres : new_metadata_tree meta R with
            | error e => rw [hres] at h; exact absurd h (by simp)
            | ok u =>
                rw [hres] at h
                obtain ⟨hu1, hu2⟩ := new_metadata_tree_char meta R u hR hres
                obtain ⟨h1, h2⟩ := ih (reUnion acc u) hrs h
                refine ⟨?_, ?_⟩
                · rw [h1, symMetas_reUnion, hu1]
                  simp [symMetas, symMetasList, substSym, hc, List.append_assoc]
                · intro hacc
                  exact h2 (flat_reUnion _ _ hacc hu2)
          · rw [if_neg hc] at h
            obtain ⟨h1, h2⟩ := ih (reUnion acc (.symbol c meta)) hrs h
            refine ⟨?_, ?_⟩
            · rw [h1, symMetas_reUnion]
              simp [symMetas, symMetasList, substSym, hc, List.append_assoc]
            · intro hacc
              exact h2 (flat_reUnion _ _ hacc rfl)
      | empty => exact absurd hr (by simp [isSymbol])
      | epsilon => exact absurd hr (by simp [isSymbol])
      | alter l2 => exact absurd hr (by simp [isSymbol])
      | cat l2 => exact absurd hr (by simp [isSymbol])
      | star r2 => exact absurd hr (by simp [isSymbol])

theorem replace_node_char (R : Re) (s : Nat) (t t' : Re)
    (hR : flatRe R = true) (hf : flatRe t = true)
    (h : replace_node R s t = .ok t') :
    symMetas t' = (symMetas t).flatMap (substSym s R) ∧ flatRe t' = true := by
  cases t with
  | symbol c meta =>
      simp only [replace_node] at h
      by_cases hc : c = s
      · rw [if_pos hc] at h
        obtain ⟨h1, h2⟩ := new_metadata_tree_char meta R t' hR h
        exact ⟨by simp [h1, symMetas, substSym, hc], h2⟩
      · rw [if_neg hc] at h
        simp only [Except.ok.injEq] at h
        subst h
        exact ⟨by simp [symMetas, substSym, hc], rfl⟩
  | alter l =>
      simp only [replace_node] at h
      have hl : l.all isSymbol = true := by simpa [flatRe] using hf
      obtain ⟨h1, h2⟩ := replace_list_char R s l .empty t' hR hl h
      exact ⟨by simpa [symMetas] using h1, h2 rfl⟩
  | empty => exact absurd h (by simp [replace_node])
  | epsilon => exact absurd h (by simp [replace_node])
  | cat l => exact absurd h (by simp [replace_node])
  | star r => exact absurd h (by simp [replace_node])

theorem buildNewReTree_char (w : World α) (ps : List (Pred α)) (acc R : Re)
    (h : buildNewReTree w ps acc = .ok R) :
    symMetas R = symMetas acc ++
      ps.map (fun p => (((lookupEntry w p).getD (0, [])).1, ([] : List Nat))) ∧
    (flatRe acc = true → flatRe R = true) := by
  induction ps generalizing acc with
  | nil =>
      simp only [buildNewReTree, Except.ok.injEq] at h
      subst h
      simp
  | cons p ps ih =>
      simp only [buildNewReTree] at h
      cases hlk : lookupEntry w p with
      | none => rw [hlk] at h; exact absurd h (by simp)
      | some sa =>
          rw [hlk] at h
          obtain ⟨h1, h2⟩ := ih (reUnion acc (.symbol sa.1 [])) h
          refine ⟨?_, ?_⟩
          · rw [h1, symMetas_reUnion]
            simp [symMetas, hlk, List.append_assoc]
          · intro hacc
            exact h2 (flat_reUnion _ _ hacc rfl)

theorem getTree_setTree_self (w : World α) (i : Nat) (t : Re)
    (h : i < w.trees.length) :
    getTree (setTree w i t) i = t := by
  simp [getTree, setTree, List.getD, List.getElem?_set_self', h]

theorem getTree_setTree_ne (w : World α) (i j : Nat) (t : Re) (h : j ≠ i) :
    getTree (setTree w i t) j = getTree w j := by
  simp [getTree, setTree, List.getD, List.getElem?_set_ne (Ne.symm h)]

theorem getTree_oob (w : World α) (i : Nat) (h : w.trees.length ≤ i) :
    getTree w i = .empty := by
  simp [getTree, List.getD, List.getElem?_eq_none h]

theorem replaceAtoms_char (R : Re) (s : Nat) (l : List Nat) (w w' : World α)
    (hnodup : l.Nodup)
    (hflat : ∀ i ∈ l, flatRe (getTree w i) = true)
    (hR : flatRe R = true)
    (h : replaceAtoms R s l w = .ok w') :
    w'.leaves = w.leaves ∧ w'.token = w.token ∧
    w'.trees.length = w.trees.length ∧
    (∀ i, i ∉ l → getTree w' i = getTree w i) ∧
    (∀ i ∈ l, symMetas (getTree w' i) =
        (symMetas (getTree w i)).flatMap (substSym s R) ∧
      flatRe (getTree w' i) = true) := by
  induction l generalizing w with
  | nil =>
      simp only [replaceAtoms, Except.ok.injEq] at h
      subst h
      exact ⟨rfl, rfl, rfl, fun i _ => rfl, by simp⟩
  | cons a rest ih =>
      simp only [replaceAtoms] at h
      cases hres : replace_node R s (getTree w a) with
      | error e => rw [hres] at h; exact absurd h (by simp)
      | ok t =>
          rw [hres] at h
          have ha : a < w.trees.length := by
            by_contra hlt
            rw [getTree_oob w a (Nat.le_of_not_lt hlt)] at hres
            rw [replace_node_empty] at hres
            exact absurd hres (by simp)
          have hfa : flatRe (getTree w a) = true := hflat a (by simp)
          obtain ⟨hchar, hft⟩ := replace_node_char R s (getTree w a) t hR hfa hres
          have hanotin : a ∉ rest := (List.nodup_cons.1 hnodup).1
          have hnodup' : rest.Nodup := (List.nodup_cons.1 hnodup).2
          have hflat' : ∀ i ∈ rest, flatRe (getTree (setTree w a t) i) = true := by
            intro i hi
            rw [getTree_setTree_ne w a i t (fun he => hanotin (he ▸ hi))]
            exact hflat i (by simp [hi])
          obtain ⟨ih1, ih2, ih3, ih4, ih5⟩ := ih (setTree w a t) hnodup' hflat' h
          refine ⟨ih1, ih2, by simpa [setTree] using ih3, ?_, ?_⟩
          · intro i hi
            have hia : i ≠ a := fun he => hi (by simp [he])
            have hirest : i ∉ rest := fun hr => hi (by simp [hr])
            rw [ih4 i hirest, getTree_setTree_ne w a i t hia]
          · intro i hi
            rcases List.mem_cons.1 hi with rfl | hir
            · rw [ih4 i hanotin, getTree_setTree_self w i t ha]
              exact ⟨hchar, hft⟩
            · have hia : i ≠ a := fun he => hanotin (he ▸ hir)
              obtain ⟨hc, hf2⟩ := ih5 i hir
              rw [getTree_setTree_ne w a i t hia] at hc
              exact ⟨hc, hf2⟩

/-! ### Claim C5 -/

/-- Claim C5: `re_tree_gen.__replace_pred__` rewrites, for every atom in
`old_pred`'s atom set, each sym node carrying `old_pred`'s symbol into an
alternation containing one sym node per predicate in `new_preds` (that
predicate's symbol), every produced leaf carrying the metadata of the
replaced node; sym nodes for other symbols are returned unchanged; trees of
atoms outside the set and the leaf table itself are untouched; and the walk
raises `TypeError` whenever it reaches a node that is neither a symbol nor
an alternation node. -/
theorem replace_pred_spec (w w' : World α) (old_pred : Pred α)
    (new_preds : List (Pred α)) (old_sym : Nat) (old_atoms : List Nat)
    (hold : lookupEntry w old_pred = some (old_sym, old_atoms))
    (hnodup : old_atoms.Nodup)
    (hflat : ∀ i ∈ old_atoms, flatRe (getTree w i) = true)
    (hrun : replace_pred w old_pred new_preds = .ok w') :
    (w'.leaves = w.leaves ∧ w'.token = w.token) ∧
    (∀ i, i ∉ old_atoms → getTree w' i = getTree w i) ∧
    (∀ i ∈ old_atoms,
      symMetas (getTree w' i) =
        (symMetas (getTree w i)).flatMap (fun cm =>
          if cm.1 = old_sym then
            (new_preds.map fun p => ((lookupEntry w p).getD (0, [])).1).map
              (fun s0 => (s0, cm.2))
          else [cm])) ∧
    (∀ s1 s2 m, replace_node (.alter [.symbol s1 [], .symbol s2 []]) old_sym
        (.symbol old_sym m) = .ok (.alter [.symbol s1 m, .symbol s2 m])) ∧
    (∀ R2 r l,
      replace_node R2 old_sym .epsilon =
        .error (.typeError "Trees are only allowed to have alternation!") ∧
      replace_node R2 old_sym (.star r) =
        .error (.typeError "Trees are only allowed to have alternation!") ∧
      replace_node R2 old_sym (.cat l) =
        .error (.typeError "Trees are only allowed to have alternation!") ∧
      replace_node R2 old_sym .empty =
        .error (.typeError "Trees are only allowed to have alternation!")) := by
  rw [replace_pred, hold] at hrun
  cases hbt : buildNewReTree w new_preds .empty with
  | error e => rw [hbt] at hrun; exact absurd hrun (by simp)
  | ok R =>
      rw [hbt] at hrun
      obtain ⟨hR1, hR2⟩ := buildNewReTree_char w new_preds .empty R hbt
      have hRflat : flatRe R = true := hR2 rfl
      rw [show symMetas Re.empty = [] from rfl, List.nil_append] at hR1
      obtain ⟨ha1, ha2, _, ha4, ha5⟩ :=
        replaceAtoms_char R old_sym old_atoms w w' hnodup hflat hRflat hrun
      have hfun : substSym old_sym R = fun cm =>
          if cm.1 = old_sym then
            (new_preds.map fun p => ((lookupEntry w p).getD (0, [])).1).map
              (fun s0 => (s0, cm.2))
          else [cm] := by
        funext cm
        rw [substSym, hR1]
        by_cases hc : cm.1 = old_sym
        · rw [if_pos hc, if_pos hc, List.map_map, List.map_map]
          rfl
        · rw [if_neg hc, if_neg hc]
      refine ⟨⟨ha1, ha2⟩, ha4, ?_, ?_, fun R2 r l => ⟨rfl, rfl, rfl, rfl⟩⟩
      · intro i hi
        rw [← hfun]
        exact (ha5 i hi).1
      · intro s1 s2 m
        simp [replace_node, new_metadata_tree, new_metadata_list, reUnion]

/-! ### Concrete construction scenarios (claims C3, C4) -/

theorem ne_conj_left (p q : Pred α) : p ≠ Pred.conj p q := by
  intro h
  have hs := congrArg sizeOf h
  simp only [Pred.conj.sizeOf_spec] at hs
  omega

theorem ne_conj_compl_right (p q : Pred α) : q ≠ Pred.conj p (Pred.compl q) := by
  intro h
  have hs := congrArg sizeOf h
  simp only [Pred.conj.sizeOf_spec, Pred.compl.sizeOf_spec] at hs
  omega

theorem get_overlap_mode_self (p : Pred α) :
    get_overlap_mode p p = (true, false, false, false) := by
  have h1 : sem (Pred.conj p (.compl p)) = ∅ := by
    simp [sem, Finset.inter_compl]
  have h2 : sem (Pred.conj (.compl p) p) = ∅ := by
    show (sem p)ᶜ ∩ sem p = ∅
    rw [Finset.inter_comm, Finset.inter_compl]
  simp [get_overlap_mode, has_nonempty_intersection, is_not_drop, h1, h2]

theorem get_overlap_mode_superset (p q : Pred α)
    (hsub : sem q ⊆ sem p) (hdiff : sem p ∩ (sem q)ᶜ ≠ ∅) :
    get_overlap_mode p q = (false, true, false, false) := by
  have h1 : sem (Pred.conj p (.compl q)) ≠ ∅ := hdiff
  have h2 : sem (Pred.conj (.compl p) q) = ∅ := by
    show (sem p)ᶜ ∩ sem q = ∅
    rw [Finset.inter_comm]
    exact (inter_compl_empty_iff _ _).2 hsub
  simp [get_overlap_mode, has_nonempty_intersection, is_not_drop, h1, h2]

theorem buildAtom_clear (P : Pred α) (hP : sem P ≠ ∅) :
    buildAtom (clearST : World α) P =
      .ok ⟨49, [(P, 49, [0])], [.symbol 49 [0]]⟩ := by
  have hd : is_not_drop P = true := decide_eq_true hP
  simp [buildAtom, get_re_tree, get_re_tree_loop, clearST, TOKEN_START_VALUE,
    hd, new_symbol, add_pred, lookupEntry, reUnion]

/-- Claim C4: constructing `atom(P)` twice for the same satisfiable predicate
`P` from a cleared table leaves exactly one leaf entry, mapping `P` to the
single symbol 49 with atom set exactly `{a1, a2}` (ids 0 and 1), and both
atoms' re_trees are the single symbol node `sym(49)` (with their own
metadata). -/
theorem duplicate_pred_scenario (P : Pred α) (hP : sem P ≠ ∅) :
    runAtoms [P, P] =
      .ok ⟨49, [(P, 49, [0, 1])], [.symbol 49 [0], .symbol 49 [1]]⟩ := by
  have h1 := buildAtom_clear P hP
  have h2 : buildAtom (⟨49, [(P, 49, [0])], [.symbol 49 [0]]⟩ : World α) P =
      .ok ⟨49, [(P, 49, [0, 1])], [.symbol 49 [0], .symbol 49 [1]]⟩ := by
    simp [buildAtom, get_re_tree, get_re_tree_loop, lookupEntry,
      get_overlap_mode_self, append_atom, reUnion]
  simp [runAtoms, runAtomsAux, h1, h2]

/-- Claim C3: constructing `atom(P)` and then `atom(Q)` from a cleared
table, where `Q` is a strict subset of `P` with `Q` and `P ∧ ¬Q` both
satisfiable, leaves exactly two leaf entries — `P ∧ ¬Q` with fresh symbol 50
and atom set `{a1}`, and `Q` with fresh symbol 51 and atom set `{a1, a2}` —
and afterwards `a1.re_tree` is the alternation of `sym(50)` and `sym(51)`
while `a2.re_tree` is the single node `sym(51)`. -/
theorem superset_scenario (P Q : Pred α)
    (hsub : sem Q ⊆ sem P) (hQ : sem Q ≠ ∅)
    (hdiff : sem P ∩ (sem Q)ᶜ ≠ ∅) :
    runAtoms [P, Q] =
      .ok ⟨51, [(.conj P (.compl Q), 50, [0]), (Q, 51, [0, 1])],
        [.alter [.symbol 50 [0], .symbol 51 [0]], .symbol 51 [1]]⟩ := by
  have hP : sem P ≠ ∅ := by
    intro h
    exact hdiff (by simp [h])
  have hPQ : P ≠ Q := by
    intro h
    exact hdiff (by rw [h, Finset.inter_compl])
  have hne1 : P ≠ Pred.conj P (Pred.compl Q) := ne_conj_left P (Pred.compl Q)
  have hne2 : Pred.conj P (Pred.compl Q) ≠ Q := (ne_conj_compl_right P Q).symm
  have hov := get_overlap_mode_superset P Q hsub hdiff
  have h1 := buildAtom_clear P hP
  have h2 : buildAtom (⟨49, [(P, 49, [0])], [.symbol 49 [0]]⟩ : World α) Q =
      .ok ⟨51, [(.conj P (.compl Q), 50, [0]), (Q, 51, [0, 1])],
        [.alter [.symbol 50 [0], .symbol 51 [0]], .symbol 51 [1]]⟩ := by
    simp [buildAtom, get_re_tree, get_re_tree_loop, lookupEntry, hov,
      new_symbol, add_pred, del_pred, replace_pred, buildNewReTree,
      replaceAtoms, replace_node, new_metadata_tree, new_metadata_list,
      reUnion, getTree, setTree, hPQ, hne1, hne2]
  simp [runAtoms, runAtomsAux, h1, h2]

/-- Witness for C3: the superset scenario on `Fin 2` with `P = {0, 1}` and
`Q = {0}`. -/
theorem superset_scenario_witness :
    runAtoms [Pred.base {0, 1}, Pred.base {0}] =
      .ok (⟨51,
        [(.conj (Pred.base {0, 1}) (.compl (Pred.base {0})), 50, [0]),
          (Pred.base {0}, 51, [0, 1])],
        [.alter [.symbol 50 [0], .symbol 51 [0]], .symbol 51 [1]]⟩ :
          World (Fin 2)) :=
  superset_scenario (Pred.base {0, 1}) (Pred.base {0})
    (by decide) (by decide) (by decide)

/-- Witness for C4: the duplicate-predicate scenario on `Fin 2` with
`P = {0}`. -/
theorem duplicate_pred_scenario_witness :
    runAtoms [Pred.base {0}, Pred.base {0}] =
      .ok (⟨49, [(Pred.base {0}, 49, [0, 1])],
        [.symbol 49 [0], .symbol 49 [1]]⟩ : World (Fin 2)) :=
  duplicate_pred_scenario (Pred.base {0}) (by decide)

/-- Witness for C5: on the concrete table `c5w`, replacing the predicate of
symbol 49 by the two predicates of symbols 50 and 51 rewrites atom 0's
symbol occurrences accordingly. -/
theorem replace_pred_spec_witness :
    symMetas (getTree c5w2 0) =
      (symMetas (getTree c5w 0)).flatMap (fun cm =>
        if cm.1 = 49 then
          (([Pred.base {1}, Pred.base {2}] : List (Pred (Fin 3))).map
            (fun p => ((lookupEntry c5w p).getD (0, [])).1)).map
            (fun s0 => (s0, cm.2))
        else [cm]) :=
  (replace_pred_spec c5w c5w2 (Pred.base {0}) [Pred.base {1}, Pred.base {2}]
    49 [0] (by rfl) (by simp)
    (by intro i hi; simp at hi; subst hi; rfl) (by rfl)).2.2.1 0
    (by simp)

/-! ### Symbol-table lemmas -/

theorem lookupEntry_none_iff (w : World α) (p : Pred α) :
    lookupEntry w p = none ↔ ∀ e ∈ w.leaves, e.1 ≠ p := by
  simp [lookupEntry, List.find?_eq_none]

theorem find?_entry_decomp (l : List (Pred α × Nat × List Nat)) (p : Pred α)
    (sa : Nat × List Nat)
    (h : (l.find? (fun e => decide (e.1 = p))).map (·.2) = some sa) :
    ∃ l1 l2, l = l1 ++ (p, sa.1, sa.2) :: l2 ∧ ∀ e ∈ l1, e.1 ≠ p := by
  induction l with
  | nil => simp at h
  | cons e es ih =>
      by_cases hp : e.1 = p
      · rw [List.find?_cons_of_pos _ (by simp [hp])] at h
        obtain ⟨s, A⟩ := sa
        refine ⟨[], es, ?_, by simp⟩
        obtain ⟨e1, e2, e3⟩ := e
        simp at h
        simp_all
      · rw [List.find?_cons_of_neg _ (by simp [hp])] at h
        obtain ⟨l1, l2, heq, hne⟩ := ih h
        refine ⟨e :: l1, l2, by simp [heq], ?_⟩
        intro f hf
        rcases List.mem_cons.1 hf with rfl | hfl
        · exact hp
        · exact hne f hfl

theorem lookupEntry_decomp (w : World α) (p : Pred α) (sa : Nat × List Nat)
    (h : lookupEntry w p = some sa) :
    ∃ l1 l2, w.leaves = l1 ++ (p, sa.1, sa.2) :: l2 ∧ ∀ e ∈ l1, e.1 ≠ p :=
  find?_entry_decomp w.leaves p sa h

theorem find?_sym_of_entry (l : List (Pred α × Nat × List Nat)) (p : Pred α)
    (s : Nat) (A : List Nat)
    (hmem : (p, s, A) ∈ l) (hnd : (l.map (fun e => e.2.1)).Nodup) :
    (l.find? (fun e => decide (e.2.1 = s))).map (·.1) = some p := by
  induction l with
  | nil => simp at hmem
  | cons e es ih =>
      rcases List.mem_cons.1 hmem with rfl | hmemtl
      · rw [List.find?_cons_of_pos _ (by simp)]
        rfl
      · by_cases hs : e.2.1 = s
        · exfalso
          have hmem2 : s ∈ es.map (fun e => e.2.1) :=
            List.mem_map.2 ⟨(p, s, A), hmemtl, rfl⟩
          rw [List.map_cons] at hnd
          exact (List.nodup_cons.1 hnd).1 (hs ▸ hmem2)
        · rw [List.find?_cons_of_neg _ (by simp [hs])]
          rw [List.map_cons] at hnd
          exact ih hmemtl (List.nodup_cons.1 hnd).2

theorem symPred_of_entry (w : World α) (p : Pred α) (s : Nat) (A : List Nat)
    (hmem : (p, s, A) ∈ w.leaves) (hnd : (leafSyms w).Nodup) :
    symPred w s = some p :=
  find?_sym_of_entry w.leaves p s A hmem hnd

theorem symSem_of_entry (w : World α) (p : Pred α) (s : Nat) (A : List Nat)
    (hmem : (p, s, A) ∈ w.leaves) (hnd : (leafSyms w).Nodup) :
    symSem w s = sem p := by
  rw [symSem, symPred_of_entry w p s A hmem hnd]
  rfl

theorem listSymSem_append (w : World α) (l1 l2 : List Nat) :
    listSymSem w (l1 ++ l2) = listSymSem w l1 ∪ listSymSem w l2 := by
  induction l1 with
  | nil => simp [listSymSem]
  | cons s l1 ih =>
      simp only [listSymSem, List.foldr_cons, List.cons_append] at ih ⊢
      rw [ih, Finset.union_assoc]

theorem listSymSem_congr (w1 w2 : World α) (l : List Nat)
    (h : ∀ s ∈ l, symSem w1 s = symSem w2 s) :
    listSymSem w1 l = listSymSem w2 l := by
  induction l with
  | nil => rfl
  | cons s l ih =>
      have h1 := h s (by simp)
      have h2 := ih (fun s' hs' => h s' (by simp [hs']))
      simp only [listSymSem, List.foldr_cons] at h2 ⊢
      rw [h1, h2]

theorem treeSyms_reUnion (a b : Re) :
    treeSyms (reUnion a b) = treeSyms a ++ treeSyms b := by
  simp [treeSyms, symMetas_reUnion]

theorem treeSem_reUnion (w : World α) (a b : Re) :
    treeSem w (reUnion a b) = treeSem w a ∪ treeSem w b := by
  rw [treeSem, treeSyms_reUnion, listSymSem_append]
  rfl

theorem treeSem_congr (w1 w2 : World α) (t : Re)
    (h : ∀ s ∈ treeSyms t, symSem w1 s = symSem w2 s) :
    treeSem w1 t = treeSem w2 t :=
  listSymSem_congr w1 w2 (treeSyms t) h

theorem find?_sym_proj_congr (l1 l2 : List (Pred α × Nat × List Nat))
    (h : l1.map (fun e => (e.1, e.2.1)) = l2.map (fun e => (e.1, e.2.1)))
    (s : Nat) :
    (l1.find? (fun e => decide (e.2.1 = s))).map (·.1) =
      (l2.find? (fun e => decide (e.2.1 = s))).map (·.1) := by
  induction l1 generalizing l2 with
  | nil =>
      cases l2 with
      | nil => rfl
      | cons f fs => simp at h
  | cons e es ih =>
      cases l2 with
      | nil => simp at h
      | cons f fs =>
          simp only [List.map_cons, List.cons.injEq, Prod.mk.injEq] at h
          obtain ⟨⟨hp, hs⟩, htl⟩ := h
          by_cases hes : e.2.1 = s
          · rw [List.find?_cons_of_pos _ (by simp [hes]),
              List.find?_cons_of_pos _ (by simp [← hs, hes])]
            simp [hp]
          · rw [List.find?_cons_of_neg _ (by simp [hes]),
              List.find?_cons_of_neg _ (by simp [← hs, hes])]
            exact ih fs htl

theorem symPred_proj_congr (w1 w2 : World α)
    (h : w1.leaves.map (fun e => (e.1, e.2.1)) =
      w2.leaves.map (fun e => (e.1, e.2.1))) (s : Nat) :
    symPred w1 s = symPred w2 s :=
  find?_sym_proj_congr w1.leaves w2.leaves h s

theorem symSem_proj_congr (w1 w2 : World α)
    (h : w1.leaves.map (fun e => (e.1, e.2.1)) =
      w2.leaves.map (fun e => (e.1, e.2.1))) (s : Nat) :
    symSem w1 s = symSem w2 s := by
  rw [symSem, symSem, symPred_proj_congr w1 w2 h s]

theorem find?_sym_none (l : List (Pred α × Nat × List Nat)) (s : Nat)
    (h : ∀ e ∈ l, e.2.1 ≠ s) :
    l.find? (fun e => decide (e.2.1 = s)) = none :=
  List.find?_eq_none.2 (fun e he => by simp [h e he])

theorem symSem_split_stable (w w6 : World α)
    (l1 l2 : List (Pred α × Nat × List Nat))
    (pe e1 e2 : Pred α × Nat × List Nat)
    (hw : w.leaves = l1 ++ pe :: l2)
    (hw6 : w6.leaves = l1 ++ l2 ++ [e1, e2])
    (s : Nat) (hse : pe.2.1 ≠ s) (h1 : e1.2.1 ≠ s) (h2 : e2.2.1 ≠ s) :
    symSem w6 s = symSem w s := by
  rw [symSem, symSem, symPred, symPred, hw, hw6, List.append_assoc,
    List.find?_append, List.find?_append, List.find?_append]
  rw [find?_sym_none [e1, e2] s (by
    intro e he
    rcases List.mem_cons.1 he with rfl | he2
    · exact h1
    · simp at he2
      rw [he2]
      exact h2)]
  rw [List.find?_cons_of_neg _ (by simp [hse])]
  rw [Option.or_none]

theorem symPred_mid_fresh (w' : World α)
    (l tail : List (Pred α × Nat × List Nat)) (q : Pred α) (sf : Nat)
    (A : List Nat)
    (hw' : w'.leaves = l ++ (q, sf, A) :: tail)
    (hfresh : ∀ e ∈ l, e.2.1 ≠ sf) :
    symPred w' sf = some q := by
  rw [symPred, hw', List.find?_append, find?_sym_none l sf hfresh]
  rw [List.find?_cons_of_pos _ (by simp)]
  rfl

theorem symSem_mid_fresh (w' : World α)
    (l tail : List (Pred α × Nat × List Nat)) (q : Pred α) (sf : Nat)
    (A : List Nat)
    (hw' : w'.leaves = l ++ (q, sf, A) :: tail)
    (hfresh : ∀ e ∈ l, e.2.1 ≠ sf) :
    symSem w' sf = sem q := by
  rw [symSem, symPred_mid_fresh w' l tail q sf A hw' hfresh]
  rfl

theorem symSem_append_stable (w w' : World α)
    (new : List (Pred α × Nat × List Nat))
    (hw' : w'.leaves = w.leaves ++ new) (s : Nat)
    (hfresh : ∀ e ∈ new, e.2.1 ≠ s) :
    symSem w' s = symSem w s := by
  rw [symSem, symSem, symPred, symPred, hw', List.find?_append,
    find?_sym_none new s hfresh, Option.or_none]

/-! ### `append_atom` lemmas -/

theorem append_atom_token (w : World α) (pred : Pred α) (a : Nat) :
    (append_atom w pred a).token = w.token := rfl

theorem append_atom_trees (w : World α) (pred : Pred α) (a : Nat) :
    (append_atom w pred a).trees = w.trees := rfl

theorem append_atom_proj (w : World α) (pred : Pred α) (a : Nat) :
    (append_atom w pred a).leaves.map (fun e => (e.1, e.2.1)) =
      w.leaves.map (fun e => (e.1, e.2.1)) := by
  rw [append_atom]
  simp only [List.map_map]
  apply List.map_congr_left
  intro e _
  by_cases h : e.1 = pred <;> simp [h]

theorem symSem_append_atom (w : World α) (pred : Pred α) (a s : Nat) :
    symSem (append_atom w pred a) s = symSem w s :=
  symSem_proj_congr _ _ (append_atom_proj w pred a) s

theorem treeSem_append_atom (w : World α) (pred : Pred α) (a : Nat) (t : Re) :
    treeSem (append_atom w pred a) t = treeSem w t :=
  treeSem_congr _ _ t (fun s _ => symSem_append_atom w pred a s)

theorem append_atom_mem (w : World α) (pred : Pred α) (a : Nat)
    (e' : Pred α × Nat × List Nat) (h : e' ∈ (append_atom w pred a).leaves) :
    ∃ e ∈ w.leaves, e'.1 = e.1 ∧ e'.2.1 = e.2.1 ∧
      (e'.2.2 = e.2.2 ∨ e'.2.2 = e.2.2 ++ [a]) := by
  rw [append_atom] at h
  simp only [List.mem_map] at h
  obtain ⟨e, he, heq⟩ := h
  refine ⟨e, he, ?_⟩
  by_cases hp : e.1 = pred
  · rw [if_pos hp] at heq
    rw [← heq]
    simp
  · rw [if_neg hp] at heq
    rw [← heq]
    simp

/-! ### Overlap-mode case analysis -/

theorem overlap_cases_equal (p q : Pred α) (x y z : Bool)
    (hm : get_overlap_mode p q = (true, x, y, z)) : sem p = sem q := by
  rw [get_overlap_mode] at hm
  simp only [has_nonempty_intersection, is_not_drop, sem] at hm
  split_ifs at hm with h1 h2 h3 h4 <;>
    [skip; simp at hm; simp at hm; simp at hm; simp at hm]
  simp only [Bool.and_eq_true, Bool.not_eq_true', decide_eq_false_iff_not,
    not_not] at h1
  refine Finset.Subset.antisymm ((inter_compl_empty_iff _ _).1 h1.1) ?_
  have h2 := h1.2
  rw [Finset.inter_comm] at h2
  exact (inter_compl_empty_iff _ _).1 h2

theorem overlap_cases_superset (p q : Pred α) (y z : Bool)
    (hm : get_overlap_mode p q = (false, true, y, z)) :
    sem q ⊆ sem p ∧ sem p ∩ (sem q)ᶜ ≠ ∅ := by
  rw [get_overlap_mode] at hm
  simp only [has_nonempty_intersection, is_not_drop, sem] at hm
  split_ifs at hm with h1 h2 h3 h4 <;>
    [simp at hm; skip; simp at hm; simp at hm; simp at hm]
  simp only [Bool.not_eq_true', decide_eq_false_iff_not, not_not] at h2
  refine ⟨?_, ?_⟩
  · have h2c := h2
    rw [Finset.inter_comm] at h2c
    exact (inter_compl_empty_iff _ _).1 h2c
  · intro hA
    exact h1 (by simp [hA, h2])

theorem overlap_cases_subset (p q : Pred α) (z : Bool)
    (hm : get_overlap_mode p q = (false, false, true, z)) :
    sem p ⊆ sem q ∧ (sem p)ᶜ ∩ sem q ≠ ∅ := by
  rw [get_overlap_mode] at hm
  simp only [has_nonempty_intersection, is_not_drop, sem] at hm
  split_ifs at hm with h1 h2 h3 h4 <;>
    [simp at hm; simp at hm; skip; simp at hm; simp at hm]
  simp only [Bool.not_eq_true', decide_eq_false_iff_not, not_not] at h3
  refine ⟨(inter_compl_empty_iff _ _).1 h3, ?_⟩
  intro hB
  exact h2 (by simp [hB])

theorem overlap_cases_intersects (p q : Pred α)
    (hm : get_overlap_mode p q = (false, false, false, true)) :
    sem p ∩ sem q ≠ ∅ ∧ sem p ∩ (sem q)ᶜ ≠ ∅ ∧ (sem p)ᶜ ∩ sem q ≠ ∅ := by
  rw [get_overlap_mode] at hm
  simp only [has_nonempty_intersection, is_not_drop, sem] at hm
  split_ifs at hm with h1 h2 h3 h4 <;>
    [simp at hm; simp at hm; simp at hm; skip; simp at hm]
  simp only [decide_eq_true_eq] at h4
  refine ⟨h4, ?_, ?_⟩
  · intro hA
    exact h3 (by simp [hA])
  · intro hB
    exact h2 (by simp [hB])

theorem overlap_cases_none (p q : Pred α)
    (hm : get_overlap_mode p q = (false, false, false, false)) :
    sem p ∩ sem q = ∅ := by
  rw [get_overlap_mode] at hm
  simp only [has_nonempty_intersection, is_not_drop, sem] at hm
  split_ifs at hm with h1 h2 h3 h4 <;>
    [simp at hm; simp at hm; simp at hm; simp at hm; skip]
  simpa using h4

/-! ### Success characterizations of the table operations -/

theorem add_pred_ok (w w' : World α) (p : Pred α) (s : Nat) (A : List Nat)
    (h : add_pred w p s A = .ok w') :
    (∀ e ∈ w.leaves, e.1 ≠ p) ∧
    w' = { w with leaves := w.leaves ++ [(p, s, A)] } := by
  rw [add_pred] at h
  split at h
  · exact absurd h (by simp)
  · rename_i hnone
    rw [Option.not_isSome_iff_eq_none] at hnone
    simp only [Except.ok.injEq] at h
    exact ⟨(lookupEntry_none_iff w p).1 hnone, h.symm⟩

theorem del_pred_ok (w w' : World α) (p : Pred α)
    (h : del_pred w p = .ok w') :
    w' = { w with leaves := w.leaves.eraseP (fun e => decide (e.1 = p)) } := by
  rw [del_pred] at h
  split at h
  · simp only [Except.ok.injEq] at h
    exact h.symm
  · exact absurd h (by simp)

theorem lookupEntry_mid (w' : World α)
    (l tail : List (Pred α × Nat × List Nat)) (q : Pred α) (s : Nat)
    (A : List Nat)
    (hw' : w'.leaves = l ++ (q, s, A) :: tail)
    (hfresh : ∀ e ∈ l, e.1 ≠ q) :
    lookupEntry w' q = some (s, A) := by
  rw [lookupEntry, hw', List.find?_append]
  rw [List.find?_eq_none.2 (fun e he => by simp [hfresh e he])]
  rw [List.find?_cons_of_pos _ (by simp)]
  rfl

theorem lookupEntry_append_left (w w' : World α)
    (new : List (Pred α × Nat × List Nat))
    (hw' : w'.leaves = w.leaves ++ new) (p : Pred α) (sa : Nat × List Nat)
    (h : lookupEntry w p = some sa) : lookupEntry w' p = some sa := by
  rw [lookupEntry] at h ⊢
  rw [hw', List.find?_append]
  cases hf : List.find? (fun e => decide (e.1 = p)) w.leaves with
  | none => rw [hf] at h; simp at h
  | some e =>
      rw [hf] at h
      simpa [Option.or] using h

theorem eraseP_mid (l1 l2 : List (Pred α × Nat × List Nat))
    (pe : Pred α × Nat × List Nat) (p : Pred α)
    (hne : ∀ e ∈ l1, e.1 ≠ p) (hp : pe.1 = p) :
    (l1 ++ pe :: l2).eraseP (fun e => decide (e.1 = p)) = l1 ++ l2 := by
  rw [List.eraseP_append_right _ (by intro b hb; simp [hne b hb])]
  rw [List.eraseP_cons_of_pos (by simp [hp])]

theorem nodup_map_eq {β γ : Type} (l : List β) (f : β → γ) (a b : β)
    (h : (l.map f).Nodup) (ha : a ∈ l) (hb : b ∈ l) (hf : f a = f b) :
    a = b := by
  induction l with
  | nil => simp at ha
  | cons x xs ih =>
      rw [List.map_cons, List.nodup_cons] at h
      rcases List.mem_cons.1 ha with rfl | ha2 <;>
        rcases List.mem_cons.1 hb with rfl | hb2
      · rfl
      · refine absurd ?_ h.1
        rw [hf]
        exact List.mem_map.2 ⟨b, hb2, rfl⟩
      · refine absurd ?_ h.1
        rw [← hf]
        exact List.mem_map.2 ⟨a, ha2, rfl⟩
      · exact ih h.2 ha2 hb2

theorem listSymSem_subst (w' w : World α) (sp s1 s2 : Nat) (R : Re)
    (hR : symMetas R = [(s1, []), (s2, [])])
    (l : List (Nat × List Nat))
    (hstable : ∀ cm ∈ l, cm.1 ≠ sp → symSem w' cm.1 = symSem w cm.1)
    (hsplit : symSem w' s1 ∪ symSem w' s2 = symSem w sp) :
    listSymSem w' ((l.flatMap (substSym sp R)).map (fun cm => cm.1)) =
      listSymSem w (l.map (fun cm => cm.1)) := by
  induction l with
  | nil => rfl
  | cons cm l ih =>
      rw [List.flatMap_cons, List.map_append, listSymSem_append,
        List.map_cons]
      have htl := ih (fun c hc h => hstable c (by simp [hc]) h)
      rw [htl]
      show _ ∪ _ = listSymSem w (cm.1 :: l.map (fun cm => cm.1))
      simp only [listSymSem, List.foldr_cons]
      by_cases hc : cm.1 = sp
      · rw [substSym, if_pos hc, hR]
        show listSymSem w' [s1, s2] ∪ _ = _
        have : listSymSem w' [s1, s2] = symSem w' s1 ∪ symSem w' s2 := by
          simp [listSymSem, Finset.union_assoc]
        rw [this, hsplit, hc]
      · rw [substSym, if_neg hc]
        show listSymSem w' [cm.1] ∪ _ = _
        have : listSymSem w' [cm.1] = symSem w' cm.1 := by
          simp [listSymSem]
        rw [this, hstable cm (by simp) hc]

/-! ### The split step (superset / intersects arms) -/

theorem split_step (w w2 w4 w5 w6 : World α) (pred q1 q2 : Pred α)
    (sp : Nat) (Ap A2 : List Nat)
    (hc : StInv w)
    (hlk : lookupEntry w pred = some (sp, Ap))
    (hq12 : sem q1 ∪ sem q2 = sem pred)
    (hq12d : sem q1 ∩ sem q2 = ∅)
    (hApnd : Ap.Nodup)
    (hApsub : Ap ⊆ A2)
    (h2 : add_pred { w with token := w.token + 1 } q1 (w.token + 1) Ap = .ok w2)
    (h4 : add_pred { w2 with token := w2.token + 1 } q2 (w2.token + 1) A2 = .ok w4)
    (h5 : replace_pred w4 pred [q1, q2] = .ok w5)
    (h6 : del_pred w5 pred = .ok w6) :
    SplitOut w w6 pred sp Ap q1 q2 A2 := by
  obtain ⟨hfr1, hw2⟩ := add_pred_ok _ w2 q1 (w.token + 1) Ap h2
  have hw2l : w2.leaves = w.leaves ++ [(q1, w.token + 1, Ap)] := by rw [hw2]
  have hw2t : w2.token = w.token + 1 := by rw [hw2]
  have hw2tr : w2.trees = w.trees := by rw [hw2]
  have h4' : add_pred { w2 with token := w2.token + 1 } q2 (w.token + 2) A2
      = .ok w4 := by rw [← h4, hw2t]
  obtain ⟨hfr2, hw4⟩ := add_pred_ok _ w4 q2 (w.token + 2) A2 h4'
  have hfr2' : ∀ e ∈ w.leaves ++ [(q1, w.token + 1, Ap)], e.1 ≠ q2 := by
    intro e he
    refine hfr2 e ?_
    show e ∈ w2.leaves
    rw [hw2l]
    exact he
  have hw4l : w4.leaves =
      w.leaves ++ [(q1, w.token + 1, Ap), (q2, w.token + 2, A2)] := by
    rw [hw4]
    show w2.leaves ++ [(q2, w.token + 2, A2)] = _
    rw [hw2l]
    simp
  have hw4t : w4.token = w.token + 2 := by
    rw [hw4]
    show w2.token + 1 = _
    rw [hw2t]
  have hw4tr : w4.trees = w.trees := by
    rw [hw4]
    show w2.trees = _
    exact hw2tr
  have hgt4 : ∀ i, getTree w4 i = getTree w i := by
    intro i
    simp only [getTree, hw4tr]
  obtain ⟨l1, l2, hwl, hl1ne⟩ := lookupEntry_decomp w pred (sp, Ap) hlk
  have hmemp : (pred, sp, Ap) ∈ w.leaves := by
    rw [hwl]
    exact List.mem_append_right _ (List.mem_cons_self _ _)
  have hsyms_le : ∀ e ∈ w.leaves, e.2.1 ≤ w.token := fun e he =>
    hc.syms_le e.2.1 (List.mem_map.2 ⟨e, he, rfl⟩)
  have hsp_le : sp ≤ w.token := hsyms_le (pred, sp, Ap) hmemp
  have hmem_sub : ∀ e ∈ l1 ++ l2, e ∈ w.leaves := by
    intro e he
    rw [hwl]
    rcases List.mem_append.1 he with h | h
    · exact List.mem_append_left _ h
    · exact List.mem_append_right _ (List.mem_cons_of_mem _ h)
  have hfrq1 : ∀ e ∈ w.leaves, e.1 ≠ q1 := fun e he => hfr1 e he
  have hfrq2 : ∀ e ∈ w.leaves, e.1 ≠ q2 := fun e he =>
    hfr2' e (List.mem_append_left _ he)
  have hq1q2 : q1 ≠ q2 :=
    hfr2' (q1, w.token + 1, Ap)
      (List.mem_append_right _ (List.mem_cons_self _ _))
  have hlk4 : lookupEntry w4 pred = some (sp, Ap) :=
    lookupEntry_append_left w w4 _ hw4l pred (sp, Ap) hlk
  have hlkq1 : lookupEntry w4 q1 = some (w.token + 1, Ap) :=
    lookupEntry_mid w4 w.leaves [(q2, w.token + 2, A2)] q1 (w.token + 1) Ap
      (by rw [hw4l]) hfrq1
  have hlkq2 : lookupEntry w4 q2 = some (w.token + 2, A2) :=
    lookupEntry_mid w4 (w.leaves ++ [(q1, w.token + 1, Ap)]) [] q2
      (w.token + 2) A2 (by rw [hw4l]; simp) hfr2'
  have hbt : buildNewReTree w4 [q1, q2] .empty =
      .ok (.alter [.symbol (w.token + 1) [], .symbol (w.token + 2) []]) := by
    simp only [buildNewReTree, hlkq1, hlkq2]
    rfl
  rw [replace_pred, hlk4] at h5
  rw [hbt] at h5
  have hflat4 : ∀ i ∈ Ap, flatRe (getTree w4 i) = true := by
    intro i _
    rw [hgt4 i]
    exact hc.tree_flat i
  obtain ⟨ha1, ha2, ha3, ha4, ha5⟩ :=
    replaceAtoms_char
      (.alter [.symbol (w.token + 1) [], .symbol (w.token + 2) []])
      sp Ap w4 w5 hApnd hflat4 rfl h5
  have hw6 := del_pred_ok w5 w6 pred h6
  have hw6l : w6.leaves = l1 ++
      (l2 ++ [(q1, w.token + 1, Ap), (q2, w.token + 2, A2)]) := by
    rw [hw6]
    show w5.leaves.eraseP (fun e => decide (e.1 = pred)) = _
    rw [ha1, hw4l, hwl, List.append_assoc, List.cons_append]
    exact eraseP_mid l1 (l2 ++ [(q1, w.token + 1, Ap), (q2, w.token + 2, A2)])
      (pred, sp, Ap) pred hl1ne rfl
  have hw6t : w6.token = w.token + 2 := by
    rw [hw6]
    show w5.token = _
    rw [ha2, hw4t]
  have hw6tr : w6.trees = w5.trees := by rw [hw6]
  have hgt6 : ∀ i, getTree w6 i = getTree w5 i := by
    intro i
    simp only [getTree, hw6tr]
  have htrlen : w6.trees.length = w.trees.length := by
    rw [hw6tr, ha3, hw4tr]
  have hq1s : symSem w6 (w.token + 1) = sem q1 := by
    refine symSem_mid_fresh w6 (l1 ++ l2) [(q2, w.token + 2, A2)] q1
      (w.token + 1) Ap (by rw [hw6l]; simp) ?_
    intro e he
    have := hsyms_le e (hmem_sub e he)
    omega
  have hq2s : symSem w6 (w.token + 2) = sem q2 := by
    refine symSem_mid_fresh w6 ((l1 ++ l2) ++ [(q1, w.token + 1, Ap)]) [] q2
      (w.token + 2) A2 (by rw [hw6l]; simp) ?_
    intro e he
    rcases List.mem_append.1 he with h | h
    · have := hsyms_le e (hmem_sub e h)
      omega
    · simp at h
      rw [h]
      show w.token + 1 ≠ w.token + 2
      omega
  have hstab : ∀ s, s ≤ w.token → s ≠ sp → symSem w6 s = symSem w s := by
    intro s hs hssp
    exact symSem_split_stable w w6 l1 l2 (pred, sp, Ap) (q1, w.token + 1, Ap)
      (q2, w.token + 2, A2) hwl (by rw [hw6l, ← List.append_assoc])
      s (Ne.symm hssp)
      (show w.token + 1 ≠ s by omega) (show w.token + 2 ≠ s by omega)
  have hspw : symSem w sp = sem pred :=
    symSem_of_entry w pred sp Ap hmemp hc.syms_nodup
  have hsplit : symSem w6 (w.token + 1) ∪ symSem w6 (w.token + 2) =
      symSem w sp := by
    rw [hq1s, hq2s, hspw, hq12]
  have hsp_not : ∀ i, i ∉ Ap → sp ∉ treeSyms (getTree w i) := by
    intro i hi hmem
    exact hi (hc.meta_consistent (pred, sp, Ap) hmemp i hmem)
  have hts : ∀ i, treeSem w6 (getTree w6 i) = treeSem w (getTree w i) := by
    intro i
    by_cases hi : i ∈ Ap
    · have hchar := (ha5 i hi).1
      rw [hgt6 i]
      show listSymSem w6 ((symMetas (getTree w5 i)).map (fun cm => cm.1)) =
        listSymSem w ((symMetas (getTree w i)).map (fun cm => cm.1))
      rw [hchar, hgt4 i]
      refine listSymSem_subst w6 w sp (w.token + 1) (w.token + 2)
        (.alter [.symbol (w.token + 1) [], .symbol (w.token + 2) []]) rfl
        (symMetas (getTree w i)) ?_ hsplit
      intro cm hcm h
      exact hstab cm.1 (hc.tree_syms_le i cm hcm) h
    · have hgt : getTree w6 i = getTree w i := by
        rw [hgt6 i, ha4 i hi, hgt4 i]
      rw [hgt]
      refine treeSem_congr w6 w (getTree w i) ?_
      intro s hs
      obtain ⟨cm, hcm, rfl⟩ := List.mem_map.1 hs
      exact hstab cm.1 (hc.tree_syms_le i cm hcm)
        (fun h => hsp_not i hi (h ▸ hs))
  have hpred_notin : ∀ e ∈ l1 ++ l2, e.1 ≠ pred := by
    have hnd := hc.preds_nodup
    rw [hwl, List.map_append, List.map_cons, List.nodup_middle] at hnd
    have hnp := (List.nodup_cons.1 hnd).1
    intro e he heq
    refine hnp ?_
    rw [← List.map_append]
    exact List.mem_map.2 ⟨e, he, heq⟩
  have hmem_split : ∀ e ∈ w6.leaves, (e ∈ w.leaves ∧ e.1 ≠ pred) ∨
      e = (q1, w.token + 1, Ap) ∨ e = (q2, w.token + 2, A2) := by
    intro e he
    rw [hw6l] at he
    rcases List.mem_append.1 he with h | h
    · exact Or.inl ⟨hmem_sub e (List.mem_append_left _ h),
        hpred_notin e (List.mem_append_left _ h)⟩
    · rcases List.mem_append.1 h with h | h
      · exact Or.inl ⟨hmem_sub e (List.mem_append_right _ h),
          hpred_notin e (List.mem_append_right _ h)⟩
      · rcases List.mem_cons.1 h with rfl | h
        · exact Or.inr (Or.inl rfl)
        · simp at h
          exact Or.inr (Or.inr h)
  have hmem_back : ∀ e ∈ w.leaves, e.1 ≠ pred → e ∈ w6.leaves := by
    intro e he hne
    rw [hw6l]
    rw [hwl] at he
    rcases List.mem_append.1 he with h | h
    · exact List.mem_append_left _ h
    · rcases List.mem_cons.1 h with rfl | h
      · exact absurd rfl hne
      · exact List.mem_append_right _ (List.mem_append_left _ h)
  have hRm : symMetas (Re.alter
      [Re.symbol (w.token + 1) [], Re.symbol (w.token + 2) []]) =
      [(w.token + 1, ([] : List Nat)), (w.token + 2, [])] := rfl
  have htsn : ∀ i, ∀ cm ∈ symMetas (getTree w6 i),
      cm.1 ∈ treeSyms (getTree w i) ∨ cm.1 = w.token + 1 ∨
        cm.1 = w.token + 2 := by
    intro i cm hcm
    by_cases hi : i ∈ Ap
    · rw [hgt6 i, (ha5 i hi).1, hgt4 i] at hcm
      rw [List.mem_flatMap] at hcm
      obtain ⟨dm, hdm, hcm⟩ := hcm
      rw [substSym] at hcm
      by_cases hd : dm.1 = sp
      · rw [if_pos hd, hRm] at hcm
        simp only [List.map_cons, List.map_nil, List.mem_cons,
          List.not_mem_nil, or_false] at hcm
        rcases hcm with rfl | rfl
        · exact Or.inr (Or.inl rfl)
        · exact Or.inr (Or.inr rfl)
      · rw [if_neg hd] at hcm
        simp only [List.mem_singleton] at hcm
        rw [hcm]
        exact Or.inl (List.mem_map.2 ⟨dm, hdm, rfl⟩)
    · rw [hgt6 i, ha4 i hi, hgt4 i] at hcm
      exact Or.inl (List.mem_map.2 ⟨cm, hcm, rfl⟩)
  have hnsm : ∀ i, (w.token + 1 ∈ treeSyms (getTree w6 i) ∨
      w.token + 2 ∈ treeSyms (getTree w6 i)) → i ∈ Ap := by
    intro i hi
    by_contra hni
    have hgt : getTree w6 i = getTree w i := by
      rw [hgt6 i, ha4 i hni, hgt4 i]
    rcases hi with hi | hi <;> rw [hgt] at hi <;>
      obtain ⟨cm, hcm, hc1⟩ := List.mem_map.1 hi <;>
      have := hc.tree_syms_le i cm hcm <;> omega
  have hsubl : List.Sublist (l1 ++ l2) w.leaves := by
    rw [hwl]
    exact List.Sublist.append_left (List.sublist_cons_self _ _) l1
  refine ⟨⟨?_, ?_, ?_, ?_, ?_, ?_, ?_⟩, hw6t, htrlen, hts, hstab, hq1s, hq2s,
    hmem_split, hmem_back, ⟨by rw [hw6l]; simp, by rw [hw6l]; simp⟩,
    ⟨hfrq1, hfrq2⟩, htsn, hnsm⟩
  · -- preds_nodup
    rw [hw6l, ← List.append_assoc, List.map_append, List.nodup_append]
    refine ⟨List.Nodup.sublist (List.Sublist.map _ hsubl) hc.preds_nodup,
      ?_, ?_⟩
    · refine List.nodup_cons.2 ⟨?_, List.nodup_singleton _⟩
      simp [hq1q2]
    · intro a ha hb
      obtain ⟨e, he, rfl⟩ := List.mem_map.1 ha
      simp only [List.map_cons, List.map_nil, List.mem_cons,
        List.not_mem_nil, or_false] at hb
      rcases hb with hb | hb
      · exact hfrq1 e (hmem_sub e he) hb
      · exact hfrq2 e (hmem_sub e he) hb
  · -- syms_nodup
    show (w6.leaves.map (fun e => e.2.1)).Nodup
    rw [hw6l, ← List.append_assoc, List.map_append, List.nodup_append]
    refine ⟨List.Nodup.sublist (List.Sublist.map _ hsubl) hc.syms_nodup,
      ?_, ?_⟩
    · refine List.nodup_cons.2 ⟨?_, List.nodup_singleton _⟩
      simp only [List.map_cons, List.map_nil, List.mem_singleton]
      omega
    · intro a ha hb
      obtain ⟨e, he, rfl⟩ := List.mem_map.1 ha
      have := hsyms_le e (hmem_sub e he)
      simp only [List.map_cons, List.map_nil, List.mem_cons,
        List.not_mem_nil, or_false] at hb
      rcases hb with hb | hb <;> omega
  · -- syms_le
    intro s hs
    obtain ⟨e, he, rfl⟩ := List.mem_map.1 hs
    rw [hw6t]
    rcases hmem_split e he with ⟨hw, _⟩ | rfl | rfl
    · have := hsyms_le e hw
      omega
    · show w.token + 1 ≤ w.token + 2
      omega
    · show w.token + 2 ≤ w.token + 2
      omega
  · -- tree_flat
    intro i
    by_cases hi : i ∈ Ap
    · rw [hgt6 i]
      exact (ha5 i hi).2
    · rw [hgt6 i, ha4 i hi, hgt4 i]
      exact hc.tree_flat i
  · -- tree_syms_le
    intro i cm hcm
    rw [hw6t]
    rcases htsn i cm hcm with h | h | h
    · obtain ⟨dm, hdm, hdc⟩ := List.mem_map.1 h
      have := hc.tree_syms_le i dm hdm
      omega
    · omega
    · omega
  · -- meta_consistent
    intro e he i hsym
    rcases hmem_split e he with ⟨hw, _⟩ | rfl | rfl
    · obtain ⟨cm, hcm, hc1⟩ := List.mem_map.1 hsym
      rcases htsn i cm hcm with h | h | h
      · exact hc.meta_consistent e hw i (hc1 ▸ h)
      · exfalso
        have := hsyms_le e hw
        omega
      · exfalso
        have := hsyms_le e hw
        omega
    · exact hnsm i (Or.inl hsym)
    · exact hApsub (hnsm i (Or.inr hsym))
  · -- disj
    have hsymm : ∀ {a b : Pred α × Nat × List Nat},
        sem a.1 ∩ sem b.1 = ∅ → sem b.1 ∩ sem a.1 = ∅ := by
      intro a b h
      rw [Finset.inter_comm]
      exact h
    have hmid := hc.disj
    rw [hwl] at hmid
    have hmid2 := (List.pairwise_middle (fun h => hsymm h)).1 hmid
    obtain ⟨hcrossp, hpw⟩ := List.pairwise_cons.1 hmid2
    have hq1p : sem q1 ⊆ sem pred := hq12 ▸ Finset.subset_union_left
    have hq2p : sem q2 ⊆ sem pred := hq12 ▸ Finset.subset_union_right
    rw [hw6l, ← List.append_assoc]
    refine List.pairwise_append.2 ⟨hpw, ?_, ?_⟩
    · refine List.pairwise_cons.2 ⟨?_, List.pairwise_singleton _ _⟩
      intro b hb
      simp only [List.mem_singleton] at hb
      rw [hb]
      exact hq12d
    · intro a ha b hb
      have hap : sem a.1 ∩ sem pred = ∅ := by
        have := hcrossp a ha
        rwa [Finset.inter_comm] at this
      have key : ∀ q : Pred α, sem q ⊆ sem pred → sem a.1 ∩ sem q = ∅ := by
        intro q hq
        have hsub : sem a.1 ∩ sem q ⊆ sem a.1 ∩ sem pred :=
          Finset.inter_subset_inter (Finset.Subset.refl _) hq
        rw [hap] at hsub
        exact Finset.subset_empty.1 hsub
      simp only [List.mem_cons, List.not_mem_nil, or_false,
        List.mem_singleton] at hb
      rcases hb with rfl | rfl
      · exact key q1 hq1p
      · exact key q2 hq2p

/-! ### Set algebra of the overlap split -/

theorem finset_sup_split (P N : Finset α) (h : N ⊆ P) :
    (P ∩ Nᶜ) ∪ N = P := by
  ext a
  simp only [Finset.mem_union, Finset.mem_inter, Finset.mem_compl]
  constructor
  · rintro (⟨h1, _⟩ | h1)
    · exact h1
    · exact h h1
  · intro h1
    by_cases h2 : a ∈ N
    · exact Or.inr h2
    · exact Or.inl ⟨h1, h2⟩

theorem finset_sub_split (P N : Finset α) (h : P ⊆ N) :
    P ∪ (N ∩ Pᶜ) = N := by
  ext a
  simp only [Finset.mem_union, Finset.mem_inter, Finset.mem_compl]
  constructor
  · rintro (h1 | ⟨h1, _⟩)
    · exact h h1
    · exact h1
  · intro h1
    by_cases h2 : a ∈ P
    · exact Or.inl h2
    · exact Or.inr ⟨h1, h2⟩

theorem finset_int_split (P N : Finset α) : (P ∩ Nᶜ) ∪ (P ∩ N) = P := by
  ext a
  simp only [Finset.mem_union, Finset.mem_inter, Finset.mem_compl]
  tauto

theorem finset_int_residual (P N : Finset α) : (P ∩ N) ∪ (N ∩ Pᶜ) = N := by
  ext a
  simp only [Finset.mem_union, Finset.mem_inter, Finset.mem_compl]
  tauto

theorem finset_disj_comp_left (A B : Finset α) : (A ∩ Bᶜ) ∩ B = ∅ := by
  ext a
  simp only [Finset.mem_inter, Finset.mem_compl, Finset.not_mem_empty,
    iff_false, not_and]
  tauto

theorem finset_disj_comp_pair (P N : Finset α) :
    (P ∩ Nᶜ) ∩ (P ∩ N) = ∅ := by
  ext a
  simp only [Finset.mem_inter, Finset.mem_compl, Finset.not_mem_empty,
    iff_false, not_and]
  tauto

theorem finset_disj_res_q1 (P N : Finset α) :
    (N ∩ Pᶜ) ∩ (P ∩ Nᶜ) = ∅ := by
  ext a
  simp only [Finset.mem_inter, Finset.mem_compl, Finset.not_mem_empty,
    iff_false, not_and]
  tauto

theorem finset_disj_res_q2 (P N : Finset α) :
    (N ∩ Pᶜ) ∩ (P ∩ N) = ∅ := by
  ext a
  simp only [Finset.mem_inter, Finset.mem_compl, Finset.not_mem_empty,
    iff_false, not_and]
  tauto

theorem finset_disj_res_pred (P N : Finset α) : (N ∩ Pᶜ) ∩ P = ∅ := by
  ext a
  simp only [Finset.mem_inter, Finset.mem_compl, Finset.not_mem_empty,
    iff_false, not_and]
  tauto

theorem inter_empty_of_subset (X Y Z : Finset α) (h : X ⊆ Y)
    (he : Y ∩ Z = ∅) : X ∩ Z = ∅ := by
  have hs := Finset.inter_subset_inter h (Finset.Subset.refl Z)
  rw [he] at hs
  exact Finset.subset_empty.1 hs

/-! ### Lookup of a stored entry, `append_atom` effects -/

theorem treeSem_symbol (w : World α) (s : Nat) (m : List Nat) :
    treeSem w (.symbol s m) = symSem w s := by
  simp [treeSem, treeSyms, symMetas, listSymSem]

theorem find?_key_of_mem (l : List (Pred α × Nat × List Nat))
    (e : Pred α × Nat × List Nat) (he : e ∈ l)
    (hnd : (l.map (fun x => x.1)).Nodup) :
    l.find? (fun x => decide (x.1 = e.1)) = some e := by
  induction l with
  | nil => simp at he
  | cons x xs ih =>
      rw [List.map_cons, List.nodup_cons] at hnd
      rcases List.mem_cons.1 he with rfl | he2
      · rw [List.find?_cons_of_pos _ (by simp)]
      · by_cases hx : x.1 = e.1
        · exfalso
          refine hnd.1 ?_
          rw [hx]
          exact List.mem_map.2 ⟨e, he2, rfl⟩
        · rw [List.find?_cons_of_neg _ (by simp [hx])]
          exact ih he2 hnd.2

theorem lookupEntry_of_mem (w : World α) (e : Pred α × Nat × List Nat)
    (he : e ∈ w.leaves) (hnd : (w.leaves.map (fun x => x.1)).Nodup) :
    lookupEntry w e.1 = some e.2 := by
  rw [lookupEntry, find?_key_of_mem w.leaves e he hnd]
  rfl

theorem append_atom_mem2 (w : World α) (pred : Pred α) (a : Nat)
    (e' : Pred α × Nat × List Nat) (h : e' ∈ (append_atom w pred a).leaves) :
    ∃ e ∈ w.leaves, (e.1 ≠ pred ∧ e' = e) ∨
      (e.1 = pred ∧ e' = (e.1, e.2.1, e.2.2 ++ [a])) := by
  simp only [append_atom, List.mem_map] at h
  obtain ⟨e, he, heq⟩ := h
  refine ⟨e, he, ?_⟩
  by_cases hp : e.1 = pred
  · exact Or.inr ⟨hp, by rw [← heq, if_pos hp]⟩
  · exact Or.inl ⟨hp, by rw [← heq, if_neg hp]⟩

theorem append_atom_mem_fwd (w : World α) (pred : Pred α) (a : Nat)
    (e : Pred α × Nat × List Nat) (he : e ∈ w.leaves) (hne : e.1 ≠ pred) :
    e ∈ (append_atom w pred a).leaves := by
  simp only [append_atom, List.mem_map]
  exact ⟨e, he, by rw [if_neg hne]⟩

theorem append_atom_mem_pred (w : World α) (pred : Pred α) (a : Nat)
    (e : Pred α × Nat × List Nat) (he : e ∈ w.leaves) (hp : e.1 = pred) :
    (e.1, e.2.1, e.2.2 ++ [a]) ∈ (append_atom w pred a).leaves := by
  simp only [append_atom, List.mem_map]
  exact ⟨e, he, by rw [if_pos hp]⟩

theorem append_atom_keys (w : World α) (pred : Pred α) (a : Nat) :
    (append_atom w pred a).leaves.map (fun e => e.1) =
      w.leaves.map (fun e => e.1) := by
  simp only [append_atom, List.map_map]
  refine List.map_congr_left ?_
  intro e _
  by_cases h : e.1 = pred <;> simp [h]

theorem append_atom_syms (w : World α) (pred : Pred α) (a : Nat) :
    leafSyms (append_atom w pred a) = leafSyms w := by
  simp only [leafSyms, append_atom, List.map_map]
  refine List.map_congr_left ?_
  intro e _
  by_cases h : e.1 = pred <;> simp [h]

theorem stinv_append_atom (w : World α) (pred : Pred α) (a : Nat)
    (hc : StInv w) : StInv (append_atom w pred a) := by
  refine ⟨?_, ?_, ?_, hc.tree_flat, hc.tree_syms_le, ?_, ?_⟩
  · rw [append_atom_keys]
    exact hc.preds_nodup
  · rw [append_atom_syms]
    exact hc.syms_nodup
  · intro s hs
    rw [append_atom_syms] at hs
    exact hc.syms_le s hs
  · intro e' he' i hsym
    obtain ⟨e, he, hca⟩ := append_atom_mem2 w pred a e' he'
    rcases hca with ⟨_, heq⟩ | ⟨_, heq⟩
    · rw [heq] at hsym ⊢
      exact hc.meta_consistent e he i hsym
    · rw [heq] at hsym ⊢
      exact List.mem_append_left _ (hc.meta_consistent e he i hsym)
  · simp only [append_atom]
    refine List.pairwise_map.2 (hc.disj.imp ?_)
    intro e f hef
    show sem (if e.1 = pred then (e.1, e.2.1, e.2.2 ++ [a]) else e).1 ∩
      sem (if f.1 = pred then (f.1, f.2.1, f.2.2 ++ [a]) else f).1 = ∅
    have he1 : (if e.1 = pred then (e.1, e.2.1, e.2.2 ++ [a]) else e).1 =
        e.1 := by
      by_cases h : e.1 = pred <;> simp [h]
    have hf1 : (if f.1 = pred then (f.1, f.2.1, f.2.2 ++ [a]) else f).1 =
        f.1 := by
      by_cases h : f.1 = pred <;> simp [h]
    rw [he1, hf1]
    exact hef

theorem loopInv_head (ps : List (Pred α)) (q0 pred : Pred α)
    (rest : List (Pred α)) (np : Pred α) (acc : Re) (w : World α)
    (hinv : LoopInv ps q0 (pred :: rest) np acc w) :
    ∃ sp Ap, lookupEntry w pred = some (sp, Ap) ∧
      (pred, sp, Ap) ∈ w.leaves ∧ (∀ a ∈ Ap, a < ps.length) ∧ Ap.Nodup := by
  obtain ⟨e, he, heq, hlt⟩ := hinv.rest_entries pred (List.mem_cons_self _ _)
  refine ⟨e.2.1, e.2.2, ?_, ?_, hlt, hinv.atoms_nodup e he⟩
  · have h := lookupEntry_of_mem w e he hinv.core.preds_nodup
    rw [heq] at h
    exact h
  · rw [← heq]
    exact he

theorem append_atom_base (ps : List (Pred α)) (q0 pred : Pred α)
    (rest : List (Pred α)) (np : Pred α) (acc : Re) (w : World α)
    (sp : Nat) (Ap : List Nat)
    (hinv : LoopInv ps q0 (pred :: rest) np acc w)
    (hmemp : (pred, sp, Ap) ∈ w.leaves)
    (hlt : ∀ a ∈ Ap, a < ps.length) :
    StInv (append_atom w pred ps.length) ∧
    (append_atom w pred ps.length).trees.length = ps.length ∧
    (∀ e ∈ (append_atom w pred ps.length).leaves, ∀ a ∈ e.2.2,
      a ≤ ps.length) ∧
    (∀ e ∈ (append_atom w pred ps.length).leaves, e.2.2.Nodup) ∧
    (∀ i, i < ps.length → treeSem (append_atom w pred ps.length)
      (getTree (append_atom w pred ps.length) i) =
        sem (ps.getD i (Pred.base ∅))) ∧
    ((∀ p ∈ ps ++ [q0], sem p ≠ ∅) →
      ∀ e ∈ (append_atom w pred ps.length).leaves, sem e.1 ≠ ∅) := by
  have hkey : ∀ e ∈ w.leaves, e.1 = pred → e = (pred, sp, Ap) := by
    intro e he hp
    exact nodup_map_eq w.leaves (fun x => x.1) e (pred, sp, Ap)
      hinv.core.preds_nodup he hmemp hp
  refine ⟨stinv_append_atom w pred ps.length hinv.core, hinv.len_eq,
    ?_, ?_, ?_, ?_⟩
  · intro e' he'
    obtain ⟨e, he, hca⟩ := append_atom_mem2 w pred ps.length e' he'
    rcases hca with ⟨_, heq⟩ | ⟨_, heq⟩
    · rw [heq]
      exact hinv.atoms_le e he
    · rw [heq]
      intro a ha
      rcases List.mem_append.1 ha with h | h
      · exact hinv.atoms_le e he a h
      · simp only [List.mem_singleton] at h
        omega
  · intro e' he'
    obtain ⟨e, he, hca⟩ := append_atom_mem2 w pred ps.length e' he'
    rcases hca with ⟨_, heq⟩ | ⟨hp, heq⟩
    · rw [heq]
      exact hinv.atoms_nodup e he
    · rw [heq]
      show (e.2.2 ++ [ps.length]).Nodup
      have hee := hkey e he hp
      rw [hee]
      rw [List.nodup_append]
      refine ⟨?_, List.nodup_singleton _, ?_⟩
      · rw [← hee]
        exact hinv.atoms_nodup e he
      · intro a ha hb
        simp only [List.mem_singleton] at hb
        have := hlt a ha
        omega
  · intro i hi
    show treeSem (append_atom w pred ps.length) (getTree w i) = _
    rw [treeSem_append_atom]
    exact hinv.sem_pres i hi
  · intro hall e' he'
    obtain ⟨e, he, hca⟩ := append_atom_mem2 w pred ps.length e' he'
    have h1 : e'.1 = e.1 := by
      rcases hca with ⟨_, heq⟩ | ⟨_, heq⟩ <;> rw [heq]
    rw [h1]
    exact hinv.sat hall e he

theorem equal_arm (ps : List (Pred α)) (q0 pred : Pred α)
    (rest : List (Pred α)) (np : Pred α) (acc : Re) (w : World α)
    (sp : Nat) (Ap : List Nat) (b2 b3 b4 : Bool)
    (hinv : LoopInv ps q0 (pred :: rest) np acc w)
    (hmemp : (pred, sp, Ap) ∈ w.leaves)
    (hlt : ∀ a ∈ Ap, a < ps.length)
    (hm : get_overlap_mode pred np = (true, b2, b3, b4)) :
    PostTree ps q0 (reUnion acc (.symbol sp [ps.length]))
      (append_atom w pred ps.length) := by
  have heqsem : sem pred = sem np := overlap_cases_equal pred np b2 b3 b4 hm
  obtain ⟨hcore, hlen, hale, hand, hpres, hsat⟩ :=
    append_atom_base ps q0 pred rest np acc w sp Ap hinv hmemp hlt
  have hkey : ∀ e ∈ w.leaves, e.1 = pred → e = (pred, sp, Ap) := by
    intro e he hp
    exact nodup_map_eq w.leaves (fun x => x.1) e (pred, sp, Ap)
      hinv.core.preds_nodup he hmemp hp
  refine ⟨hcore, hlen, hale, hand, hpres, hsat, ?_, ?_, ?_, ?_⟩
  · exact flat_reUnion acc _ hinv.acc_flat rfl
  · rw [treeSem_reUnion, treeSem_append_atom, treeSem_append_atom,
      treeSem_symbol, symSem_of_entry w pred sp Ap hmemp hinv.core.syms_nodup,
      heqsem]
    exact hinv.acc_sem
  · intro cm hcm
    rw [symMetas_reUnion] at hcm
    rcases List.mem_append.1 hcm with h | h
    · exact hinv.acc_syms_le cm h
    · simp only [symMetas, List.mem_singleton] at h
      rw [h]
      show sp ≤ w.token
      exact hinv.core.syms_le sp (List.mem_map.2 ⟨(pred, sp, Ap), hmemp, rfl⟩)
  · intro e' he' hsym
    obtain ⟨e, he, hca⟩ := append_atom_mem2 w pred ps.length e' he'
    rw [treeSyms_reUnion] at hsym
    rcases List.mem_append.1 hsym with h | h
    · have h2 : e.2.1 ∈ treeSyms acc := by
        rcases hca with ⟨_, heq⟩ | ⟨_, heq⟩ <;> rw [heq] at h <;> exact h
      have h3 := hinv.acc_meta e he h2
      rcases hca with ⟨_, heq⟩ | ⟨_, heq⟩
      · rw [heq]
        exact h3
      · rw [heq]
        exact List.mem_append_left _ h3
    · have hsp : e'.2.1 = sp := by
        simpa [treeSyms, symMetas] using h
      have he21 : e.2.1 = sp := by
        rcases hca with ⟨_, heq⟩ | ⟨_, heq⟩ <;> rw [heq] at hsp <;> exact hsp
      have heeq : e = (pred, sp, Ap) :=
        nodup_map_eq w.leaves (fun x => x.2.1) e (pred, sp, Ap)
          hinv.core.syms_nodup he hmemp he21
      rcases hca with ⟨hne, heq⟩ | ⟨_, heq⟩
      · exact absurd (show e.1 = pred by rw [heeq]) hne
      · rw [heq]
        show ps.length ∈ e.2.2 ++ [ps.length]
        simp

theorem subset_arm (ps : List (Pred α)) (q0 pred : Pred α)
    (rest : List (Pred α)) (np : Pred α) (acc : Re) (w : World α)
    (sp : Nat) (Ap : List Nat) (b4 : Bool)
    (hinv : LoopInv ps q0 (pred :: rest) np acc w)
    (hmemp : (pred, sp, Ap) ∈ w.leaves)
    (hlt : ∀ a ∈ Ap, a < ps.length)
    (hm : get_overlap_mode pred np = (false, false, true, b4)) :
    LoopInv ps q0 rest (.conj np (.compl pred))
      (reUnion acc (.symbol sp [ps.length]))
      (append_atom w pred ps.length) := by
  obtain ⟨hsub, hres⟩ := overlap_cases_subset pred np b4 hm
  obtain ⟨hcore, hlen, hale, hand, hpres, hsat⟩ :=
    append_atom_base ps q0 pred rest np acc w sp Ap hinv hmemp hlt
  have hkey : ∀ e ∈ w.leaves, e.1 = pred → e = (pred, sp, Ap) := by
    intro e he hp
    exact nodup_map_eq w.leaves (fun x => x.1) e (pred, sp, Ap)
      hinv.core.preds_nodup he hmemp hp
  have hpred_rest : pred ∉ rest := (List.nodup_cons.1 hinv.snap_nodup).1
  refine ⟨hcore, hlen, hale, hand, hpres, hsat,
    (List.nodup_cons.1 hinv.snap_nodup).2, ?_, ?_, ?_, ?_, ?_, ?_, ?_, ?_⟩
  · -- rest_entries
    intro p hp
    obtain ⟨e, he, heq, hlt2⟩ := hinv.rest_entries p (List.mem_cons_of_mem _ hp)
    have hep : e.1 ≠ pred := by
      rw [heq]
      intro hcon
      rw [hcon] at hp
      exact hpred_rest hp
    exact ⟨e, append_atom_mem_fwd w pred ps.length e he hep, heq, hlt2⟩
  · -- acc_flat
    exact flat_reUnion acc _ hinv.acc_flat rfl
  · -- acc_sem
    rw [treeSem_reUnion, treeSem_append_atom, treeSem_append_atom,
      treeSem_symbol, symSem_of_entry w pred sp Ap hmemp hinv.core.syms_nodup]
    show (treeSem w acc ∪ sem pred) ∪ (sem np ∩ (sem pred)ᶜ) = sem q0
    rw [Finset.union_assoc, finset_sub_split (sem pred) (sem np) hsub]
    exact hinv.acc_sem
  · -- acc_syms_le
    intro cm hcm
    rw [symMetas_reUnion] at hcm
    rcases List.mem_append.1 hcm with h | h
    · exact hinv.acc_syms_le cm h
    · simp only [symMetas, List.mem_singleton] at h
      rw [h]
      show sp ≤ w.token
      exact hinv.core.syms_le sp (List.mem_map.2 ⟨(pred, sp, Ap), hmemp, rfl⟩)
  · -- acc_meta
    intro e' he' hsym
    obtain ⟨e, he, hca⟩ := append_atom_mem2 w pred ps.length e' he'
    rw [treeSyms_reUnion] at hsym
    rcases List.mem_append.1 hsym with h | h
    · have h2 : e.2.1 ∈ treeSyms acc := by
        rcases hca with ⟨_, heq⟩ | ⟨_, heq⟩ <;> rw [heq] at h <;> exact h
      have h3 := hinv.acc_meta e he h2
      rcases hca with ⟨_, heq⟩ | ⟨_, heq⟩
      · rw [heq]
        exact h3
      · rw [heq]
        exact List.mem_append_left _ h3
    · have hsp : e'.2.1 = sp := by
        simpa [treeSyms, symMetas] using h
      have he21 : e.2.1 = sp := by
        rcases hca with ⟨_, heq⟩ | ⟨_, heq⟩ <;> rw [heq] at hsp <;> exact hsp
      have heeq : e = (pred, sp, Ap) :=
        nodup_map_eq w.leaves (fun x => x.2.1) e (pred, sp, Ap)
          hinv.core.syms_nodup he hmemp he21
      rcases hca with ⟨hne, heq⟩ | ⟨_, heq⟩
      · exact absurd (show e.1 = pred by rw [heeq]) hne
      · rw [heq]
        show ps.length ∈ e.2.2 ++ [ps.length]
        simp
  · -- acc_live
    intro cm hcm
    rw [symMetas_reUnion] at hcm
    rcases List.mem_append.1 hcm with h | h
    · obtain ⟨e, he, hsym, hnr⟩ := hinv.acc_live cm h
      have hep : e.1 ≠ pred := by
        intro hcon
        exact hnr (by rw [hcon]; exact List.mem_cons_self _ _)
      exact ⟨e, append_atom_mem_fwd w pred ps.length e he hep, hsym,
        fun hh => hnr (List.mem_cons_of_mem _ hh)⟩
    · simp only [symMetas, List.mem_singleton] at h
      refine ⟨(pred, sp, Ap ++ [ps.length]), ?_, ?_, hpred_rest⟩
      · exact append_atom_mem_pred w pred ps.length (pred, sp, Ap) hmemp rfl
      · rw [h]
  · -- np_disj
    intro e' he'
    obtain ⟨e, he, hca⟩ := append_atom_mem2 w pred ps.length e' he'
    have h1 : e'.1 = e.1 := by
      rcases hca with ⟨_, heq⟩ | ⟨_, heq⟩ <;> rw [heq]
    rw [h1]
    by_cases hp : e.1 = pred
    · left
      rw [hp]
      show (sem np ∩ (sem pred)ᶜ) ∩ sem pred = ∅
      exact finset_disj_res_pred (sem pred) (sem np)
    · rcases hinv.np_disj e he with h | h
      · left
        exact inter_empty_of_subset _ (sem np) _ Finset.inter_subset_left h
      · rcases List.mem_cons.1 h with h2 | h2
        · exact absurd h2 hp
        · exact Or.inr h2
  · -- np_sat
    intro _
    show sem np ∩ (sem pred)ᶜ ≠ ∅
    intro hcon
    refine hres ?_
    rw [Finset.inter_comm] at hcon
    exact hcon

theorem none_arm (ps : List (Pred α)) (q0 pred : Pred α)
    (rest : List (Pred α)) (np : Pred α) (acc : Re) (w : World α)
    (hinv : LoopInv ps q0 (pred :: rest) np acc w)
    (hm : get_overlap_mode pred np = (false, false, false, false)) :
    LoopInv ps q0 rest np acc w := by
  have hdisj : sem pred ∩ sem np = ∅ := overlap_cases_none pred np hm
  refine ⟨hinv.core, hinv.len_eq, hinv.atoms_le, hinv.atoms_nodup,
    hinv.sem_pres, hinv.sat, (List.nodup_cons.1 hinv.snap_nodup).2,
    ?_, hinv.acc_flat, hinv.acc_sem, hinv.acc_syms_le, ?_, ?_, ?_,
    hinv.np_sat⟩
  · intro p hp
    exact hinv.rest_entries p (List.mem_cons_of_mem _ hp)
  · exact hinv.acc_meta
  · intro cm hcm
    obtain ⟨e, he, hsym, hnr⟩ := hinv.acc_live cm hcm
    exact ⟨e, he, hsym, fun hh => hnr (List.mem_cons_of_mem _ hh)⟩
  · intro e he
    rcases hinv.np_disj e he with h | h
    · exact Or.inl h
    · rcases List.mem_cons.1 h with h2 | h2
      · left
        rw [h2, Finset.inter_comm]
        exact hdisj
      · exact Or.inr h2

theorem split_base (ps : List (Pred α)) (q0 pred : Pred α)
    (rest : List (Pred α)) (np : Pred α) (acc : Re) (w w6 : World α)
    (sp : Nat) (Ap : List Nat) (q1 q2 : Pred α)
    (hinv : LoopInv ps q0 (pred :: rest) np acc w)
    (hmemp : (pred, sp, Ap) ∈ w.leaves)
    (hlt : ∀ a ∈ Ap, a < ps.length)
    (hnd : Ap.Nodup)
    (so : SplitOut w w6 pred sp Ap q1 q2 (Ap ++ [ps.length]))
    (hq1ne : sem q1 ≠ ∅)
    (hq2sat : sem q0 ≠ ∅ → sem q2 ≠ ∅) :
    w6.trees.length = ps.length ∧
    (∀ e ∈ w6.leaves, ∀ a ∈ e.2.2, a ≤ ps.length) ∧
    (∀ e ∈ w6.leaves, e.2.2.Nodup) ∧
    (∀ i, i < ps.length →
      treeSem w6 (getTree w6 i) = sem (ps.getD i (Pred.base ∅))) ∧
    ((∀ p ∈ ps ++ [q0], sem p ≠ ∅) → ∀ e ∈ w6.leaves, sem e.1 ≠ ∅) := by
  refine ⟨?_, ?_, ?_, ?_, ?_⟩
  · rw [so.trees_len]
    exact hinv.len_eq
  · intro e he
    rcases so.mem_split e he with ⟨hew, _⟩ | heq | heq
    · exact hinv.atoms_le e hew
    · rw [heq]
      intro a ha
      have := hlt a ha
      omega
    · rw [heq]
      intro a ha
      rcases List.mem_append.1 ha with h | h
      · have := hlt a h
        omega
      · simp only [List.mem_singleton] at h
        omega
  · intro e he
    rcases so.mem_split e he with ⟨hew, _⟩ | heq | heq
    · exact hinv.atoms_nodup e hew
    · rw [heq]
      exact hnd
    · rw [heq]
      show (Ap ++ [ps.length]).Nodup
      rw [List.nodup_append]
      refine ⟨hnd, List.nodup_singleton _, ?_⟩
      intro a ha hb
      simp only [List.mem_singleton] at hb
      have := hlt a ha
      omega
  · intro i hi
    rw [so.tree_sem i]
    exact hinv.sem_pres i hi
  · intro hall e he
    rcases so.mem_split e he with ⟨hew, _⟩ | heq | heq
    · exact hinv.sat hall e hew
    · rw [heq]
      exact hq1ne
    · rw [heq]
      exact hq2sat (hall q0 (by simp))

theorem split_acc_stable (ps : List (Pred α)) (q0 pred : Pred α)
    (rest : List (Pred α)) (np : Pred α) (acc : Re) (w w6 : World α)
    (sp : Nat) (Ap A2 : List Nat) (q1 q2 : Pred α)
    (hinv : LoopInv ps q0 (pred :: rest) np acc w)
    (hmemp : (pred, sp, Ap) ∈ w.leaves)
    (so : SplitOut w w6 pred sp Ap q1 q2 A2) :
    treeSem w6 acc = treeSem w acc := by
  refine treeSem_congr w6 w acc ?_
  intro s hs
  obtain ⟨cm, hcm, rfl⟩ := List.mem_map.1 hs
  obtain ⟨e, he, hsym, hnr⟩ := hinv.acc_live cm hcm
  refine so.sym_stable cm.1 ?_ ?_
  · rw [← hsym]
    exact hinv.core.syms_le e.2.1 (List.mem_map.2 ⟨e, he, rfl⟩)
  · intro hspp
    have heeq : e = (pred, sp, Ap) :=
      nodup_map_eq w.leaves (fun x => x.2.1) e (pred, sp, Ap)
        hinv.core.syms_nodup he hmemp
        (by show e.2.1 = sp; rw [hsym, hspp])
    refine hnr ?_
    rw [show e.1 = pred by rw [heeq]]
    exact List.mem_cons_self _ _

theorem superset_arm (ps : List (Pred α)) (q0 pred : Pred α)
    (rest : List (Pred α)) (np : Pred α) (acc : Re) (w w6 : World α)
    (sp : Nat) (Ap : List Nat) (b3 b4 : Bool)
    (hinv : LoopInv ps q0 (pred :: rest) np acc w)
    (hmemp : (pred, sp, Ap) ∈ w.leaves)
    (hlt : ∀ a ∈ Ap, a < ps.length)
    (hnd : Ap.Nodup)
    (hm : get_overlap_mode pred np = (false, true, b3, b4))
    (so : SplitOut w w6 pred sp Ap (.conj pred (.compl np)) np
      (Ap ++ [ps.length])) :
    PostTree ps q0 (reUnion acc (.symbol (w.token + 2) [ps.length])) w6 := by
  obtain ⟨hsup, hne1⟩ := overlap_cases_superset pred np b3 b4 hm
  have hq1ne : sem (Pred.conj pred (Pred.compl np)) ≠ ∅ := hne1
  obtain ⟨hlen, hale, hand, hpres, hsat⟩ :=
    split_base ps q0 pred rest np acc w w6 sp Ap _ _ hinv hmemp hlt hnd so
      hq1ne hinv.np_sat
  have hsyms_le : ∀ e ∈ w.leaves, e.2.1 ≤ w.token := fun e he =>
    hinv.core.syms_le e.2.1 (List.mem_map.2 ⟨e, he, rfl⟩)
  refine ⟨so.core, hlen, hale, hand, hpres, hsat, ?_, ?_, ?_, ?_⟩
  · exact flat_reUnion acc _ hinv.acc_flat rfl
  · rw [treeSem_reUnion, treeSem_symbol, so.q2_sem,
      split_acc_stable ps q0 pred rest np acc w w6 sp Ap _ _ _ hinv hmemp so]
    exact hinv.acc_sem
  · intro cm hcm
    rw [symMetas_reUnion] at hcm
    rcases List.mem_append.1 hcm with h | h
    · have := hinv.acc_syms_le cm h
      rw [so.token_eq]
      omega
    · simp only [symMetas, List.mem_singleton] at h
      rw [h, so.token_eq]
  · intro e he hsym
    rw [treeSyms_reUnion] at hsym
    rcases List.mem_append.1 hsym with h | h
    · rcases so.mem_split e he with ⟨hew, _⟩ | heq | heq
      · exact hinv.acc_meta e hew h
      · exfalso
        obtain ⟨cm, hcm, hc1⟩ := List.mem_map.1 h
        have h2 := hinv.acc_syms_le cm hcm
        have h3 : cm.1 = w.token + 1 := by
          rw [heq] at hc1
          exact hc1
        omega
      · exfalso
        obtain ⟨cm, hcm, hc1⟩ := List.mem_map.1 h
        have h2 := hinv.acc_syms_le cm hcm
        have h3 : cm.1 = w.token + 2 := by
          rw [heq] at hc1
          exact hc1
        omega
    · have hsp2 : e.2.1 = w.token + 2 := by
        simpa [treeSyms, symMetas] using h
      rcases so.mem_split e he with ⟨hew, _⟩ | heq | heq
      · exfalso
        have := hsyms_le e hew
        omega
      · exfalso
        have h3 : w.token + 1 = w.token + 2 := by
          rw [heq] at hsp2
          exact hsp2
        omega
      · rw [heq]
        show ps.length ∈ Ap ++ [ps.length]
        simp

theorem intersects_arm (ps : List (Pred α)) (q0 pred : Pred α)
    (rest : List (Pred α)) (np : Pred α) (acc : Re) (w w6 : World α)
    (sp : Nat) (Ap : List Nat)
    (hinv : LoopInv ps q0 (pred :: rest) np acc w)
    (hmemp : (pred, sp, Ap) ∈ w.leaves)
    (hlt : ∀ a ∈ Ap, a < ps.length)
    (hnd : Ap.Nodup)
    (hm : get_overlap_mode pred np = (false, false, false, true))
    (so : SplitOut w w6 pred sp Ap (.conj pred (.compl np)) (.conj pred np)
      (Ap ++ [ps.length])) :
    LoopInv ps q0 rest (.conj np (.compl pred))
      (reUnion acc (.symbol (w.token + 2) [ps.length])) w6 := by
  obtain ⟨hPN, hPNc, hPcN⟩ := overlap_cases_intersects pred np hm
  have hq1ne : sem (Pred.conj pred (Pred.compl np)) ≠ ∅ := hPNc
  have hq2ne : sem (Pred.conj pred np) ≠ ∅ := hPN
  obtain ⟨hlen, hale, hand, hpres, hsat⟩ :=
    split_base ps q0 pred rest np acc w w6 sp Ap _ _ hinv hmemp hlt hnd so
      hq1ne (fun _ => hq2ne)
  have hsyms_le : ∀ e ∈ w.leaves, e.2.1 ≤ w.token := fun e he =>
    hinv.core.syms_le e.2.1 (List.mem_map.2 ⟨e, he, rfl⟩)
  have hpred_rest : pred ∉ rest := (List.nodup_cons.1 hinv.snap_nodup).1
  refine ⟨so.core, hlen, hale, hand, hpres, hsat,
    (List.nodup_cons.1 hinv.snap_nodup).2, ?_, ?_, ?_, ?_, ?_, ?_, ?_, ?_⟩
  · intro p hp
    obtain ⟨e, he, heq, hlt2⟩ :=
      hinv.rest_entries p (List.mem_cons_of_mem _ hp)
    have hep : e.1 ≠ pred := by
      rw [heq]
      intro hcon
      rw [hcon] at hp
      exact hpred_rest hp
    exact ⟨e, so.mem_back e he hep, heq, hlt2⟩
  · exact flat_reUnion acc _ hinv.acc_flat rfl
  · rw [treeSem_reUnion, treeSem_symbol, so.q2_sem,
      split_acc_stable ps q0 pred rest np acc w w6 sp Ap _ _ _ hinv hmemp so]
    show treeSem w acc ∪ (sem pred ∩ sem np) ∪ (sem np ∩ (sem pred)ᶜ) =
      sem q0
    rw [Finset.union_assoc, finset_int_residual (sem pred) (sem np)]
    exact hinv.acc_sem
  · intro cm hcm
    rw [symMetas_reUnion] at hcm
    rcases List.mem_append.1 hcm with h | h
    · have := hinv.acc_syms_le cm h
      rw [so.token_eq]
      omega
    · simp only [symMetas, List.mem_singleton] at h
      rw [h, so.token_eq]
  · intro e he hsym
    rw [treeSyms_reUnion] at hsym
    rcases List.mem_append.1 hsym with h | h
    · rcases so.mem_split e he with ⟨hew, _⟩ | heq | heq
      · exact hinv.acc_meta e hew h
      · exfalso
        obtain ⟨cm, hcm, hc1⟩ := List.mem_map.1 h
        have h2 := hinv.acc_syms_le cm hcm
        have h3 : cm.1 = w.token + 1 := by
          rw [heq] at hc1
          exact hc1
        omega
      · exfalso
        obtain ⟨cm, hcm, hc1⟩ := List.mem_map.1 h
        have h2 := hinv.acc_syms_le cm hcm
        have h3 : cm.1 = w.token + 2 := by
          rw [heq] at hc1
          exact hc1
        omega
    · have hsp2 : e.2.1 = w.token + 2 := by
        simpa [treeSyms, symMetas] using h
      rcases so.mem_split e he with ⟨hew, _⟩ | heq | heq
      · exfalso
        have := hsyms_le e hew
        omega
      · exfalso
        have h3 : w.token + 1 = w.token + 2 := by
          rw [heq] at hsp2
          exact hsp2
        omega
      · rw [heq]
        show ps.length ∈ Ap ++ [ps.length]
        simp
  · intro cm hcm
    rw [symMetas_reUnion] at hcm
    rcases List.mem_append.1 hcm with h | h
    · obtain ⟨e, he, hsym, hnr⟩ := hinv.acc_live cm h
      have hep : e.1 ≠ pred := fun hcon =>
        hnr (by rw [hcon]; exact List.mem_cons_self _ _)
      exact ⟨e, so.mem_back e he hep, hsym,
        fun hh => hnr (List.mem_cons_of_mem _ hh)⟩
    · simp only [symMetas, List.mem_singleton] at h
      refine ⟨(Pred.conj pred np, w.token + 2, Ap ++ [ps.length]),
        so.mem_new.2, ?_, ?_⟩
      · rw [h]
      · intro hcon
        obtain ⟨e, he, heq, _⟩ :=
          hinv.rest_entries _ (List.mem_cons_of_mem _ hcon)
        exact so.fresh_keys.2 e he heq
  · intro e he
    rcases so.mem_split e he with ⟨hew, hne⟩ | heq | heq
    · rcases hinv.np_disj e hew with h | h
      · left
        exact inter_empty_of_subset _ (sem np) _ Finset.inter_subset_left h
      · rcases List.mem_cons.1 h with h2 | h2
        · exact absurd h2 hne
        · exact Or.inr h2
    · left
      rw [heq]
      show sem (Pred.conj np (Pred.compl pred)) ∩
        sem (Pred.conj pred (Pred.compl np)) = ∅
      exact finset_disj_res_q1 (sem pred) (sem np)
    · left
      rw [heq]
      show sem (Pred.conj np (Pred.compl pred)) ∩
        sem (Pred.conj pred np) = ∅
      exact finset_disj_res_q2 (sem pred) (sem np)
  · intro _
    show sem np ∩ (sem pred)ᶜ ≠ ∅
    intro hcon
    refine hPcN ?_
    rw [Finset.inter_comm] at hcon
    exact hcon

theorem get_re_tree_loop_post (ps : List (Pred α)) (q0 : Pred α)
    (rest : List (Pred α)) :
    ∀ (np : Pred α) (acc : Re) (w : World α) (res : LoopRes α),
      LoopInv ps q0 rest np acc w →
      get_re_tree_loop ps.length rest np acc w = .ok res →
      (∀ t w1, res = .done t w1 → PostTree ps q0 t w1) ∧
      (∀ t np1 w1, res = .cont t np1 w1 → LoopInv ps q0 [] np1 t w1) := by
  induction rest with
  | nil =>
      intro np acc w res hinv hrun
      simp only [get_re_tree_loop, Except.ok.injEq] at hrun
      subst hrun
      refine ⟨?_, ?_⟩
      · intro t w1 h
        simp at h
      · intro t np1 w1 h
        injection h with h1 h2 h3
        subst h1
        subst h2
        subst h3
        exact hinv
  | cons pred rest ih =>
      intro np acc w res hinv hrun
      obtain ⟨sp, Ap, hlk, hmemp, hlt, hnd⟩ :=
        loopInv_head ps q0 pred rest np acc w hinv
      rcases hgom : get_overlap_mode pred np with ⟨b1, b2, b3, b4⟩
      cases b1 with
      | true =>
          simp only [get_re_tree_loop, hlk, hgom, Except.ok.injEq] at hrun
          subst hrun
          refine ⟨?_, ?_⟩
          · intro t w1 h
            injection h with h1 h2
            subst h1
            subst h2
            exact equal_arm ps q0 pred rest np acc w sp Ap b2 b3 b4 hinv
              hmemp hlt hgom
          · intro t np1 w1 h
            simp at h
      | false =>
        cases b2 with
        | true =>
            simp only [get_re_tree_loop, hlk, hgom, new_symbol] at hrun
            have hsup := (overlap_cases_superset pred np b3 b4 hgom).1
            have hq12 : sem (Pred.conj pred (Pred.compl np)) ∪ sem np =
                sem pred := finset_sup_split (sem pred) (sem np) hsup
            have hq12d : sem (Pred.conj pred (Pred.compl np)) ∩ sem np = ∅ :=
              finset_disj_comp_left (sem pred) (sem np)
            split at hrun
            · simp at hrun
            · rename_i w2 h2
              split at hrun
              · simp at hrun
              · rename_i w4 h4
                split at hrun
                · simp at hrun
                · rename_i w5 h5
                  split at hrun
                  · simp at hrun
                  · rename_i w6 h6
                    have so := split_step w w2 w4 w5 w6 pred
                      (.conj pred (.compl np)) np sp Ap (Ap ++ [ps.length])
                      hinv.core hlk hq12 hq12d hnd
                      (List.subset_append_left Ap [ps.length]) h2 h4 h5 h6
                    have hlko : lookupEntry w6 np =
                        some (w.token + 2, Ap ++ [ps.length]) :=
                      lookupEntry_of_mem w6
                        (np, w.token + 2, Ap ++ [ps.length])
                        so.mem_new.2 so.core.preds_nodup
                    split at hrun
                    · rename_i heq
                      rw [hlko] at heq
                      simp at heq
                    · rename_i added_sym x heq
                      rw [hlko] at heq
                      simp only [Option.some.injEq, Prod.mk.injEq] at heq
                      obtain ⟨h7, h8⟩ := heq
                      subst h7
                      simp only [Except.ok.injEq] at hrun
                      subst hrun
                      refine ⟨?_, ?_⟩
                      · intro t w1 h
                        injection h with ha hb
                        subst ha
                        subst hb
                        exact superset_arm ps q0 pred rest np acc w w6 sp Ap
                          b3 b4 hinv hmemp hlt hnd hgom so
                      · intro t np1 w1 h
                        simp at h
        | false =>
          cases b3 with
          | true =>
              simp only [get_re_tree_loop, hlk, hgom] at hrun
              exact ih (.conj np (.compl pred))
                (reUnion acc (.symbol sp [ps.length]))
                (append_atom w pred ps.length) res
                (subset_arm ps q0 pred rest np acc w sp Ap b4 hinv hmemp hlt
                  hgom) hrun
          | false =>
            cases b4 with
            | true =>
                simp only [get_re_tree_loop, hlk, hgom, new_symbol] at hrun
                have hq12 : sem (Pred.conj pred (Pred.compl np)) ∪
                    sem (Pred.conj pred np) = sem pred :=
                  finset_int_split (sem pred) (sem np)
                have hq12d : sem (Pred.conj pred (Pred.compl np)) ∩
                    sem (Pred.conj pred np) = ∅ :=
                  finset_disj_comp_pair (sem pred) (sem np)
                split at hrun
                · simp at hrun
                · rename_i w2 h2
                  split at hrun
                  · simp at hrun
                  · rename_i w4 h4
                    split at hrun
                    · simp at hrun
                    · rename_i w5 h5
                      split at hrun
                      · simp at hrun
                      · rename_i w6 h6
                        have so := split_step w w2 w4 w5 w6 pred
                          (.conj pred (.compl np)) (.conj pred np) sp Ap
                          (Ap ++ [ps.length]) hinv.core hlk hq12 hq12d hnd
                          (List.subset_append_left Ap [ps.length]) h2 h4 h5 h6
                        have hlko : lookupEntry w6 (Pred.conj pred np) =
                            some (w.token + 2, Ap ++ [ps.length]) :=
                          lookupEntry_of_mem w6
                            (Pred.conj pred np, w.token + 2,
                              Ap ++ [ps.length])
                            so.mem_new.2 so.core.preds_nodup
                        split at hrun
                        · rename_i heq
                          rw [hlko] at heq
                          simp at heq
                        · rename_i added_sym x heq
                          rw [hlko] at heq
                          simp only [Option.some.injEq, Prod.mk.injEq] at heq
                          obtain ⟨h7, h8⟩ := heq
                          subst h7
                          exact ih (.conj np (.compl pred))
                            (reUnion acc (.symbol (w.token + 2) [ps.length]))
                            w6 res
                            (intersects_arm ps q0 pred rest np acc w w6 sp Ap
                              hinv hmemp hlt hnd hgom so) hrun
            | false =>
                simp only [get_re_tree_loop, hlk, hgom] at hrun
                exact ih np acc w res (none_arm ps q0 pred rest np acc w hinv
                  hgom) hrun

theorem loopInv_init (ps : List (Pred α)) (q0 : Pred α) (w : World α)
    (hinv : Inv ps w) :
    LoopInv ps q0 (w.leaves.map (·.1)) q0 .empty w := by
  refine ⟨hinv.core, hinv.len_eq, ?_, hinv.atoms_nodup, hinv.sem_pres, ?_,
    hinv.core.preds_nodup, ?_, rfl, ?_, ?_, ?_, ?_, ?_, fun h => h⟩
  · intro e he a ha
    exact Nat.le_of_lt (hinv.atoms_lt e he a ha)
  · intro hall e he
    exact hinv.sat (fun p hp => hall p (List.mem_append_left _ hp)) e he
  · intro p hp
    obtain ⟨e, he, heq⟩ := List.mem_map.1 hp
    exact ⟨e, he, heq, hinv.atoms_lt e he⟩
  · show (∅ : Finset α) ∪ sem q0 = sem q0
    exact Finset.empty_union _
  · intro cm hcm
    simp [symMetas] at hcm
  · intro e _ hmem
    simp [treeSyms, symMetas] at hmem
  · intro cm hcm
    simp [symMetas] at hcm
  · intro e he
    exact Or.inr (List.mem_map.2 ⟨e, he, rfl⟩)

theorem final_add_post (ps : List (Pred α)) (q0 np : Pred α) (t : Re)
    (w1 w3 : World α)
    (hl : LoopInv ps q0 [] np t w1)
    (hsat : is_not_drop np = true)
    (h3 : add_pred { w1 with token := w1.token + 1 } np (w1.token + 1)
      [ps.length] = .ok w3) :
    PostTree ps q0 (reUnion t (.symbol (w1.token + 1) [ps.length])) w3 := by
  have hnpne : sem np ≠ ∅ := of_decide_eq_true hsat
  obtain ⟨hfr, hw3⟩ := add_pred_ok _ w3 np (w1.token + 1) [ps.length] h3
  have hfr' : ∀ e ∈ w1.leaves, e.1 ≠ np := fun e he => hfr e he
  have hw3l : w3.leaves =
      w1.leaves ++ [(np, w1.token + 1, [ps.length])] := by rw [hw3]
  have hw3t : w3.token = w1.token + 1 := by rw [hw3]
  have hw3tr : w3.trees = w1.trees := by rw [hw3]
  have hgt3 : ∀ i, getTree w3 i = getTree w1 i := by
    intro i
    simp only [getTree, hw3tr]
  have hsyms_le : ∀ e ∈ w1.leaves, e.2.1 ≤ w1.token := fun e he =>
    hl.core.syms_le e.2.1 (List.mem_map.2 ⟨e, he, rfl⟩)
  have hstab : ∀ s, s ≤ w1.token → symSem w3 s = symSem w1 s := by
    intro s hs
    refine symSem_append_stable w1 w3 _ hw3l s ?_
    intro e he
    simp only [List.mem_singleton] at he
    rw [he]
    show w1.token + 1 ≠ s
    omega
  have hnewsem : symSem w3 (w1.token + 1) = sem np :=
    symSem_mid_fresh w3 w1.leaves [] np (w1.token + 1) [ps.length]
      (by rw [hw3l]) (fun e he => by have := hsyms_le e he; omega)
  have htsem : ∀ R : Re, (∀ cm ∈ symMetas R, cm.1 ≤ w1.token) →
      treeSem w3 R = treeSem w1 R := by
    intro R hle
    refine treeSem_congr w3 w1 R ?_
    intro s hs
    obtain ⟨cm, hcm, rfl⟩ := List.mem_map.1 hs
    exact hstab cm.1 (hle cm hcm)
  refine ⟨⟨?_, ?_, ?_, ?_, ?_, ?_, ?_⟩, ?_, ?_, ?_, ?_, ?_, ?_, ?_, ?_, ?_⟩
  · rw [hw3l, List.map_append, List.nodup_append]
    refine ⟨hl.core.preds_nodup, by simp, ?_⟩
    intro a ha hb
    obtain ⟨e, he, rfl⟩ := List.mem_map.1 ha
    simp only [List.map_cons, List.map_nil, List.mem_singleton] at hb
    exact hfr' e he hb
  · show (w3.leaves.map (fun e => e.2.1)).Nodup
    rw [hw3l, List.map_append, List.nodup_append]
    refine ⟨hl.core.syms_nodup, by simp, ?_⟩
    intro a ha hb
    obtain ⟨e, he, rfl⟩ := List.mem_map.1 ha
    simp only [List.map_cons, List.map_nil, List.mem_singleton] at hb
    have := hsyms_le e he
    omega
  · intro s hs
    rw [hw3t]
    obtain ⟨e, he, rfl⟩ := List.mem_map.1 hs
    rw [hw3l] at he
    rcases List.mem_append.1 he with h | h
    · have := hsyms_le e h
      omega
    · simp only [List.mem_singleton] at h
      rw [h]
  · intro i
    rw [hgt3 i]
    exact hl.core.tree_flat i
  · intro i cm hcm
    rw [hgt3 i] at hcm
    have := hl.core.tree_syms_le i cm hcm
    rw [hw3t]
    omega
  · intro e he i hsym
    rw [hw3l] at he
    rw [hgt3 i] at hsym
    rcases List.mem_append.1 he with h | h
    · exact hl.core.meta_consistent e h i hsym
    · simp only [List.mem_singleton] at h
      exfalso
      rw [h] at hsym
      obtain ⟨cm, hcm, hc1⟩ := List.mem_map.1 hsym
      have := hl.core.tree_syms_le i cm hcm
      have h2 : cm.1 = w1.token + 1 := hc1
      omega
  · rw [hw3l, List.pairwise_append]
    refine ⟨hl.core.disj, List.pairwise_singleton _ _, ?_⟩
    intro a ha b hb
    simp only [List.mem_singleton] at hb
    rw [hb]
    show sem a.1 ∩ sem np = ∅
    rcases hl.np_disj a ha with h | h
    · rw [Finset.inter_comm]
      exact h
    · simp at h
  · rw [hw3tr]
    exact hl.len_eq
  · intro e he
    rw [hw3l] at he
    rcases List.mem_append.1 he with h | h
    · exact hl.atoms_le e h
    · simp only [List.mem_singleton] at h
      rw [h]
      intro a ha
      simp at ha
      omega
  · intro e he
    rw [hw3l] at he
    rcases List.mem_append.1 he with h | h
    · exact hl.atoms_nodup e h
    · simp only [List.mem_singleton] at h
      rw [h]
      exact List.nodup_singleton _
  · intro i hi
    rw [hgt3 i, htsem (getTree w1 i) (hl.core.tree_syms_le i)]
    exact hl.sem_pres i hi
  · intro hall e he
    rw [hw3l] at he
    rcases List.mem_append.1 he with h | h
    · exact hl.sat hall e h
    · simp only [List.mem_singleton] at h
      rw [h]
      exact hnpne
  · exact flat_reUnion t _ hl.acc_flat rfl
  · rw [treeSem_reUnion, treeSem_symbol, hnewsem, htsem t hl.acc_syms_le]
    exact hl.acc_sem
  · intro cm hcm
    rw [symMetas_reUnion] at hcm
    rcases List.mem_append.1 hcm with h | h
    · have := hl.acc_syms_le cm h
      rw [hw3t]
      omega
    · simp only [symMetas, List.mem_singleton] at h
      rw [h, hw3t]
  · intro e he hsym
    rw [hw3l] at he
    rw [treeSyms_reUnion] at hsym
    rcases List.mem_append.1 he with hme | hme
    · rcases List.mem_append.1 hsym with h | h
      · exact hl.acc_meta e hme h
      · exfalso
        have h2 : e.2.1 = w1.token + 1 := by
          simpa [treeSyms, symMetas] using h
        have := hsyms_le e hme
        omega
    · simp only [List.mem_singleton] at hme
      rw [hme] at hsym ⊢
      rcases List.mem_append.1 hsym with h | h
      · exfalso
        obtain ⟨cm, hcm, hc1⟩ := List.mem_map.1 h
        have := hl.acc_syms_le cm hcm
        have h2 : cm.1 = w1.token + 1 := hc1
        omega
      · show ps.length ∈ [ps.length]
        simp

theorem final_skip_post (ps : List (Pred α)) (q0 np : Pred α) (t : Re)
    (w1 : World α) (hl : LoopInv ps q0 [] np t w1)
    (hdrop : is_not_drop np = false) :
    PostTree ps q0 t w1 := by
  have hnp : sem np = ∅ := not_not.1 (of_decide_eq_false hdrop)
  refine ⟨hl.core, hl.len_eq, hl.atoms_le, hl.atoms_nodup, hl.sem_pres,
    hl.sat, hl.acc_flat, ?_, hl.acc_syms_le, hl.acc_meta⟩
  have h := hl.acc_sem
  rw [hnp, Finset.union_empty] at h
  exact h

theorem get_re_tree_post (ps : List (Pred α)) (q0 : Pred α) (w : World α)
    (t : Re) (w1 : World α) (hinv : Inv ps w)
    (hrun : get_re_tree w q0 ps.length = .ok (t, w1)) :
    PostTree ps q0 t w1 := by
  have hloop0 := loopInv_init ps q0 w hinv
  rw [get_re_tree] at hrun
  split at hrun
  · simp at hrun
  · rename_i t' w1' heq
    simp only [Except.ok.injEq, Prod.mk.injEq] at hrun
    obtain ⟨h1, h2⟩ := hrun
    subst h1
    subst h2
    exact (get_re_tree_loop_post ps q0 (w.leaves.map (·.1)) q0 .empty w
      (.done t' w1') hloop0 heq).1 t' w1' rfl
  · rename_i t' np' w1' heq
    have hl := (get_re_tree_loop_post ps q0 (w.leaves.map (·.1)) q0 .empty w
      (.cont t' np' w1') hloop0 heq).2 t' np' w1' rfl
    split at hrun
    · rename_i hsat
      simp only [new_symbol] at hrun
      split at hrun
      · simp at hrun
      · rename_i w3 h3
        obtain ⟨hfr, hw3⟩ :=
          add_pred_ok _ w3 np' (w1'.token + 1) [ps.length] h3
        have hlk3 : lookupEntry w3 np' =
            some (w1'.token + 1, [ps.length]) :=
          lookupEntry_mid w3 w1'.leaves [] np' (w1'.token + 1) [ps.length]
            (by rw [hw3]) (fun e he => hfr e he)
        split at hrun
        · rename_i heq2
          rw [hlk3] at heq2
          simp at heq2
        · rename_i added x heq2
          rw [hlk3] at heq2
          simp only [Option.some.injEq, Prod.mk.injEq] at heq2
          obtain ⟨h7, h8⟩ := heq2
          subst h7
          simp only [Except.ok.injEq, Prod.mk.injEq] at hrun
          obtain ⟨h9, h10⟩ := hrun
          subst h9
          subst h10
          exact final_add_post ps q0 np' t' w1' w3 hl hsat h3
    · rename_i hdrop
      simp only [Bool.not_eq_true] at hdrop
      simp only [Except.ok.injEq, Prod.mk.injEq] at hrun
      obtain ⟨h9, h10⟩ := hrun
      subst h9
      subst h10
      exact final_skip_post ps q0 np' t' w1' hl hdrop

theorem buildAtom_step (ps : List (Pred α)) (q0 : Pred α) (w w' : World α)
    (hinv : Inv ps w) (hrun : buildAtom w q0 = .ok w') :
    Inv (ps ++ [q0]) w' := by
  rw [buildAtom, hinv.len_eq] at hrun
  split at hrun
  · simp at hrun
  · rename_i t w1 heq
    simp only [Except.ok.injEq] at hrun
    have hp := get_re_tree_post ps q0 w t w1 hinv heq
    subst hrun
    have hlen1 : w1.trees.length = ps.length := hp.len_eq
    have hgtlt : ∀ i, i < ps.length →
        getTree { w1 with trees := w1.trees ++ [t] } i = getTree w1 i := by
      intro i hi
      show (w1.trees ++ [t]).getD i .empty = w1.trees.getD i .empty
      simp [List.getD,
        List.getElem?_append_left (show i < w1.trees.length by omega)]
    have hgteq : getTree { w1 with trees := w1.trees ++ [t] } ps.length =
        t := by
      show (w1.trees ++ [t]).getD ps.length .empty = t
      rw [← hlen1]
      simp [List.getD, List.getElem?_concat_length w1.trees t]
    have hgtgt : ∀ i, ps.length < i →
        getTree { w1 with trees := w1.trees ++ [t] } i = .empty := by
      intro i hi
      refine getTree_oob _ i ?_
      show (w1.trees ++ [t]).length ≤ i
      have h2 : (w1.trees ++ [t]).length = ps.length + 1 := by
        simp [hlen1]
      omega
    refine ⟨⟨hp.core.preds_nodup, hp.core.syms_nodup, hp.core.syms_le,
      ?_, ?_, ?_, hp.core.disj⟩, ?_, ?_, hp.atoms_nodup, ?_, ?_⟩
    · intro i
      rcases Nat.lt_trichotomy i ps.length with hi | hi | hi
      · rw [hgtlt i hi]
        exact hp.core.tree_flat i
      · rw [hi, hgteq]
        exact hp.t_flat
      · rw [hgtgt i hi]
        rfl
    · intro i cm hcm
      rcases Nat.lt_trichotomy i ps.length with hi | hi | hi
      · rw [hgtlt i hi] at hcm
        exact hp.core.tree_syms_le i cm hcm
      · rw [hi, hgteq] at hcm
        exact hp.t_syms_le cm hcm
      · rw [hgtgt i hi] at hcm
        simp [symMetas] at hcm
    · intro e he i hsym
      rcases Nat.lt_trichotomy i ps.length with hi | hi | hi
      · rw [hgtlt i hi] at hsym
        exact hp.core.meta_consistent e he i hsym
      · rw [hi, hgteq] at hsym
        rw [hi]
        exact hp.t_meta e he hsym
      · rw [hgtgt i hi] at hsym
        simp [treeSyms, symMetas] at hsym
    · show (w1.trees ++ [t]).length = (ps ++ [q0]).length
      simp [hlen1]
    · intro e he a ha
      have h1 := hp.atoms_le e he a ha
      have h2 : (ps ++ [q0]).length = ps.length + 1 := by simp
      omega
    · intro i hi
      have hlen2 : (ps ++ [q0]).length = ps.length + 1 := by simp
      rcases Nat.lt_trichotomy i ps.length with h | h | h
      · rw [hgtlt i h]
        show treeSem w1 (getTree w1 i) = _
        have hgd : (ps ++ [q0]).getD i (Pred.base ∅) =
            ps.getD i (Pred.base ∅) := by
          simp [List.getD, List.getElem?_append_left h]
        rw [hgd]
        exact hp.sem_pres i h
      · rw [h, hgteq]
        show treeSem w1 t = _
        have hgd : (ps ++ [q0]).getD ps.length (Pred.base ∅) = q0 := by
          simp [List.getD, List.getElem?_concat_length ps q0]
        rw [hgd]
        exact hp.t_sem
      · rw [hlen2] at hi
        omega
    · intro hall e he
      exact hp.sat hall e he

theorem inv_clear : Inv ([] : List (Pred α)) clearST := by
  refine ⟨⟨?_, ?_, ?_, ?_, ?_, ?_, ?_⟩, rfl, ?_, ?_, ?_, ?_⟩
  · simp [clearST]
  · simp [leafSyms, clearST]
  · intro s hs
    simp [leafSyms, clearST] at hs
  · intro i
    simp [getTree, clearST, List.getD, flatRe]
  · intro i cm hcm
    simp [getTree, clearST, List.getD, symMetas] at hcm
  · intro e he
    simp [clearST] at he
  · show ([] : List (Pred α × Nat × List Nat)).Pairwise _
    exact List.Pairwise.nil
  · intro e he
    simp [clearST] at he
  · intro e he
    simp [clearST] at he
  · intro i hi
    simp at hi
  · intro _ e he
    simp [clearST] at he

theorem runAtomsAux_inv (qs : List (Pred α)) :
    ∀ (ps : List (Pred α)) (w w' : World α), Inv ps w →
      runAtomsAux w qs = .ok w' → Inv (ps ++ qs) w' := by
  induction qs with
  | nil =>
      intro ps w w' hinv h
      simp only [runAtomsAux, Except.ok.injEq] at h
      subst h
      rw [List.append_nil]
      exact hinv
  | cons q qs ih =>
      intro ps w w' hinv h
      simp only [runAtomsAux] at h
      split at h
      · simp at h
      · rename_i w1 heq
        have h1 := buildAtom_step ps q w w1 hinv heq
        have h2 := ih (ps ++ [q]) w1 w' h1 h
        rwa [List.append_assoc, List.singleton_append] at h2

theorem runAtoms_inv (ps : List (Pred α)) (w : World α)
    (h : runAtoms ps = .ok w) : Inv ps w := by
  have h2 := runAtomsAux_inv ps [] clearST w inv_clear h
  rwa [List.nil_append] at h2

/-! ### Claim C1 -/

/-- Claim C1: after any finite sequence of atom constructions (a successful
run of `atom(p)` for each `p` in `ps`, from a cleared symbol table), for
every constructed atom `i` with original predicate `ps[i]`, the union of the
leaf predicates bound to the symbols occurring in the atom's stored
`re_tree` equals the denotation of `ps[i]` — the language of every atom's
tree under the current leaf partition is preserved by every later atom
construction. -/
theorem atom_language_preservation (ps : List (Pred α)) (w : World α)
    (h : runAtoms ps = .ok w) :
    ∀ i, i < ps.length →
      treeSem w (getTree w i) = sem (ps.getD i (Pred.base ∅)) :=
  fun i hi => (runAtoms_inv ps w h).sem_pres i hi

theorem atom_language_preservation_witness :
    runAtoms [Pred.base ({0, 1} : Finset (Fin 2)), Pred.base {0}] =
        .ok c1w ∧
      0 < [Pred.base ({0, 1} : Finset (Fin 2)), Pred.base {0}].length ∧
      treeSem c1w (getTree c1w 0) =
        sem (Pred.base ({0, 1} : Finset (Fin 2))) := by
  have hrun : runAtoms [Pred.base ({0, 1} : Finset (Fin 2)),
      Pred.base {0}] = .ok c1w := by rfl
  refine ⟨hrun, by decide, ?_⟩
  exact atom_language_preservation
    [Pred.base ({0, 1} : Finset (Fin 2)), Pred.base {0}] c1w hrun 0
    (by decide)

/-! ### Claim C2 -/

/-- Claim C2, first part refuted: the source keeps no satisfiability
invariant on stored leaves. Constructing `atom({0})` and then `atom(∅)`
(an unsatisfiable predicate) succeeds and stores the leaf `(∅, σ51)`,
whose predicate is unsatisfiable: `get_overlap_mode({0}, ∅)` reports
`is_superset` (both backing intersections are empty), so the loop splits
the leaf `{0}` and stores the new predicate `∅` without any
`is_not_drop` check. -/
theorem leaf_satisfiable_cex :
    runAtoms [Pred.base ({0} : Finset (Fin 2)), Pred.base ∅] = .ok c2w ∧
    (Pred.base ∅, 51, [0, 1]) ∈ c2w.leaves ∧
    sem (Pred.base (∅ : Finset (Fin 2))) = ∅ := by
  refine ⟨by rfl, ?_, rfl⟩
  simp [c2w]

/-- Claim C2 (amended): after any successful finite sequence of atom
constructions the stored leaf predicates are pairwise semantically
disjoint (any two distinct leaf entries have unsatisfiable conjunction);
and, provided every constructed atom predicate is satisfiable, every
stored leaf predicate is satisfiable. The original claim's unconditional
satisfiability of stored leaves is refuted by `leaf_satisfiable_cex`:
registering an atom whose predicate is unsatisfiable stores an
unsatisfiable leaf. -/
theorem leaf_disjoint_satisfiable (ps : List (Pred α)) (w : World α)
    (h : runAtoms ps = .ok w) :
    w.leaves.Pairwise (fun e1 e2 => sem e1.1 ∩ sem e2.1 = ∅) ∧
    ((∀ p ∈ ps, sem p ≠ ∅) → ∀ e ∈ w.leaves, sem e.1 ≠ ∅) :=
  ⟨(runAtoms_inv ps w h).core.disj, (runAtoms_inv ps w h).sat⟩

theorem leaf_disjoint_satisfiable_witness :
    runAtoms [Pred.base ({0} : Finset (Fin 2))] = .ok c2w2 ∧
    (∀ p ∈ [Pred.base ({0} : Finset (Fin 2))], sem p ≠ ∅) ∧
    (c2w2.leaves.Pairwise (fun e1 e2 => sem e1.1 ∩ sem e2.1 = ∅) ∧
      ((∀ p ∈ [Pred.base ({0} : Finset (Fin 2))], sem p ≠ ∅) →
        ∀ e ∈ c2w2.leaves, sem e.1 ≠ ∅)) := by
  have hrun : runAtoms [Pred.base ({0} : Finset (Fin 2))] = .ok c2w2 := by
    rfl
  refine ⟨hrun, ?_, leaf_disjoint_satisfiable _ c2w2 hrun⟩
  intro p hp
  simp only [List.mem_singleton] at hp
  rw [hp]
  decide

end Pyretic
